import Mathlib

/-!
Verification of the natural-language specification of
`gleason_extraction_py` (Finnish Cancer Registry) against a shallow
embedding of its Python sources.

Strings are embedded as `List Char`.  Python regular expressions used by
the sources are embedded either as dedicated recursive string transforms
(for the fixed substitutions of `utils.normalise_text`) or through a small
regex AST with Python-style leftmost, backtracking, greedy semantics
(`Rx` below).  Fallible Python code (raise) is embedded with `Except`.
-/

/-! ### Character helpers

`pyIsSpace` embeds the character set matched by Python's `\s` (default
Unicode mode): the ASCII whitespace characters plus the Unicode whitespace
code points. -/

def pyIsSpace (ch : Char) : Bool :=
  ch = ' ' ∨ ch = '\t' ∨ ch = '\n' ∨ ch = '\r' ∨
  ch.toNat = 0x0b ∨ ch.toNat = 0x0c ∨
  (0x1c ≤ ch.toNat ∧ ch.toNat ≤ 0x1f) ∨
  ch.toNat = 0x85 ∨ ch.toNat = 0xa0 ∨ ch.toNat = 0x1680 ∨
  (0x2000 ≤ ch.toNat ∧ ch.toNat ≤ 0x200a) ∨
  ch.toNat = 0x2028 ∨ ch.toNat = 0x2029 ∨ ch.toNat = 0x202f ∨
  ch.toNat = 0x205f ∨ ch.toNat = 0x3000

def isDigitCh (ch : Char) : Bool :=
  '0' ≤ ch ∧ ch ≤ '9'

/-- The character class `[a-zåäöA-ZÅÄÖ]` of `utils.normalise_text`. -/
def isLetterCls (ch : Char) : Bool :=
  ('a' ≤ ch ∧ ch ≤ 'z') ∨ ('A' ≤ ch ∧ ch ≤ 'Z') ∨
  ch = 'å' ∨ ch = 'ä' ∨ ch = 'ö' ∨ ch = 'Å' ∨ ch = 'Ä' ∨ ch = 'Ö'

/-- Embedding of Python `str.lower` restricted to the alphabet the
source's regular expressions operate on: ASCII letters and Å/Ä/Ö. -/
def toLowerCh : Char → Char
  | 'A' => 'a' | 'B' => 'b' | 'C' => 'c' | 'D' => 'd' | 'E' => 'e'
  | 'F' => 'f' | 'G' => 'g' | 'H' => 'h' | 'I' => 'i' | 'J' => 'j'
  | 'K' => 'k' | 'L' => 'l' | 'M' => 'm' | 'N' => 'n' | 'O' => 'o'
  | 'P' => 'p' | 'Q' => 'q' | 'R' => 'r' | 'S' => 's' | 'T' => 't'
  | 'U' => 'u' | 'V' => 'v' | 'W' => 'w' | 'X' => 'x' | 'Y' => 'y'
  | 'Z' => 'z' | 'Å' => 'å' | 'Ä' => 'ä' | 'Ö' => 'ö'
  | ch => ch

/-! ### Run substitution

`subRuns p k s` embeds `re.sub` of the pattern "one maximal run of
characters satisfying `p`, of length at least `k`" with a single space:
this is the shape of the substitutions `[: ]{1,}`, `\.{2,}`, `\_+`,
`\-{2,}` and `\s+` in `utils.normalise_text` (leftmost match, greedy,
so each maximal run of length ≥ k is replaced by one space; shorter runs
are kept verbatim). -/

def subRunsGo (p : Char → Bool) (k : Nat) : Nat → List Char → List Char
  | _, [] => []
  | skip + 1, _ :: rest => subRunsGo p k skip rest
  | 0, ch :: rest =>
    if p ch then
      (if k ≤ (ch :: rest.takeWhile p).length then [' ']
       else ch :: rest.takeWhile p) ++
        subRunsGo p k (rest.takeWhile p).length rest
    else
      ch :: subRunsGo p k 0 rest

def subRuns (p : Char → Bool) (k : Nat) (s : List Char) : List Char :=
  subRunsGo p k 0 s

/-- Literal, non-overlapping, left-to-right replacement of every
occurrence of `pat` by `repl` — `re.sub` with a literal pattern
(used for the Roman-numeral substitutions of `normalise_text` and for
the `%ORDER%` / `%PATTERN_NAME%` placeholders of the mask). -/
def subLitGo (pat repl : List Char) : Nat → List Char → List Char
  | _, [] => []
  | skip + 1, _ :: rest => subLitGo pat repl skip rest
  | 0, ch :: rest =>
    if pat ≠ [] ∧ pat.isPrefixOf (ch :: rest) then
      repl ++ subLitGo pat repl (pat.length - 1) rest
    else
      ch :: subLitGo pat repl 0 rest

def subLit (pat repl : List Char) (s : List Char) : List Char :=
  subLitGo pat repl 0 s

/-- The zero-width substitution `(?<=[0-9])(?=[a-zåäöA-ZÅÄÖ])` → `" "`:
insert one space at every boundary where a digit is immediately followed
by a letter. -/
def insertDigitLetterSpace : List Char → List Char
  | [] => []
  | [ch] => [ch]
  | c1 :: c2 :: rest =>
    if isDigitCh c1 ∧ isLetterCls c2 then
      c1 :: ' ' :: insertDigitLetterSpace (c2 :: rest)
    else
      c1 :: insertDigitLetterSpace (c2 :: rest)

/-- The ten Roman-numeral substitution pairs of `normalise_text`:
`" I "` → `" 1 "`, …, `" X "` → `" 10 "` (patterns are upper case and
space delimited, applied in this order). -/
def romanSubPairs : List (List Char × List Char) :=
  [(" I ".toList, " 1 ".toList),
   (" II ".toList, " 2 ".toList),
   (" III ".toList, " 3 ".toList),
   (" IV ".toList, " 4 ".toList),
   (" V ".toList, " 5 ".toList),
   (" VI ".toList, " 6 ".toList),
   (" VII ".toList, " 7 ".toList),
   (" VIII ".toList, " 8 ".toList),
   (" IX ".toList, " 9 ".toList),
   (" X ".toList, " 10 ".toList)]

def romanStep (s : List Char) : List Char :=
  romanSubPairs.foldl (fun acc pr => subLit pr.1 pr.2 acc) s

/-- Embedding of `utils.normalise_text`, line by line:
1. `\n|\r` → `" "`;
2. `[: ]{1,}` → `" "`;
3. `\.{2,}` → `" "`;
4. `\_+` → `" "`;
5. `\-{2,}` → `" "`;
6. insert a space between a digit and a following letter;
7. Roman numeral substitutions;
8. `\s+` → `" "`;
9. lower-casing. -/
def normaliseText (s : List Char) : List Char :=
  let s1 := s.map (fun ch => if ch = '\n' ∨ ch = '\r' then ' ' else ch)
  let s2 := subRuns (fun ch => ch = ':' ∨ ch = ' ') 1 s1
  let s3 := subRuns (fun ch => ch = '.') 2 s2
  let s4 := subRuns (fun ch => ch = '_') 1 s3
  let s5 := subRuns (fun ch => ch = '-') 2 s4
  let s6 := insertDigitLetterSpace s5
  let s7 := romanStep s6
  let s8 := subRuns pyIsSpace 1 s7
  s8.map toLowerCh

/-! ### Component C: `utils.determine_element_combinations`

A row of the input table has exactly one non-null value among the
columns `a`, `b`, `t`, `c`; the function infers that column name
(`type`) per row and then assigns group ids by scanning the `type`
sequence with the fixed priority list of allowed combinations. -/

inductive Elem
  | a
  | b
  | t
  | c
deriving DecidableEq, Repr

/-- The fixed list `allowed_combinations` in its source order (the four
trailing single-element "combinations" are Python scalars, i.e.
one-element sequences for `np.repeat`). -/
def allowedCombinations : List (List Elem) :=
  [[Elem.c, Elem.a, Elem.b, Elem.t],
   [Elem.c, Elem.a, Elem.b],
   [Elem.c, Elem.b, Elem.a],
   [Elem.a, Elem.b, Elem.t, Elem.c],
   [Elem.a, Elem.b, Elem.c],
   [Elem.b, Elem.a, Elem.c],
   [Elem.a, Elem.b, Elem.t],
   [Elem.a, Elem.b],
   [Elem.a],
   [Elem.b],
   [Elem.t],
   [Elem.c]]

/-- `np.repeat(comb, n)`: element-wise repetition,
`[a,b]` with `n = 2` gives `[a,a,b,b]`. -/
def elemRepeat (comb : List Elem) (n : Nat) : List Elem :=
  comb.flatMap (List.replicate n)

/-- `np.array_equal(np.array(dt["type"][r]), candidate)` where
`r = range(wh_first, min(n, wh_first + len(candidate)))`: the window is
truncated at the end of the table, and a truncated window never equals
the full candidate (shapes differ). -/
def matchesAt (suffix cand : List Elem) : Bool :=
  suffix.take cand.length = cand

/-- The inner loop `for n_each in range(n_max_each)` with candidate
`np.repeat(comb, n_each + 1)`: repetition counts 1, 2, …, `nMaxEach`
tried in ascending order; on the first match return the candidate
length. -/
def findNEach (suffix comb : List Elem) (nMaxEach : Nat) : Option Nat :=
  (List.range nMaxEach).findSome? (fun j =>
    let cand := elemRepeat comb (j + 1)
    if matchesAt suffix cand then some cand.length else none)

/-- The outer loop over `allowed_combinations` (priority order; first
match wins). -/
def findCombination (suffix : List Elem) (nMaxEach : Nat) : Option Nat :=
  allowedCombinations.findSome? (fun comb => findNEach suffix comb nMaxEach)

/-- The `while (dt["grp"].isnull().values.any())` loop: repeatedly take
the first unassigned position, find the first matching (combination,
repetition) pair, assign the whole matched window one group id
(`dt.loc[r, "grp"] = max_grp`), increment `max_grp`, continue after the
window.  The Python loop spins forever if no combination matches (this
cannot happen for `nMaxEach ≥ 1`); the embedding uses fuel (one unit per
assigned window suffices) and returns the rows assigned so far when the
fuel runs out or no combination matches. -/
def assignGroupsAux (nMaxEach : Nat) : Nat → List Elem → Nat → List Nat
  | 0, _, _ => []
  | _ + 1, [], _ => []
  | fuel + 1, e :: rest, grp =>
    match findCombination (e :: rest) nMaxEach with
    | none => []
    | some len =>
      List.replicate (min len (e :: rest).length) grp ++
        assignGroupsAux nMaxEach fuel ((e :: rest).drop len) (grp + 1)

/-- The `grp` column computed by `determine_element_combinations`,
as a function of the per-row `type` sequence. -/
def assignGroups (types : List Elem) (nMaxEach : Nat) : List Nat :=
  assignGroupsAux nMaxEach types.length types 0

/-! ### Python errors

Python exceptions raised by the sources are embedded as `Except PyErr`
values. -/

deriving instance DecidableEq for Except

inductive PyErr
  | valueError (msg : List Char)
  | typeError (msg : List Char)
  | keyError (msg : List Char)
deriving DecidableEq, Repr

/-! ### A small regex engine

`Rx` embeds the subset of Python `re` syntax used by the sources:
literals, character classes (lists of closed ranges, possibly negated),
concatenation, alternation, greedy counted repetition (`*`, `+`, `?`,
`{m,n}` are all `rep`), the anchors `^` and `$`, and positive lookahead
`(?=…)`.

`matchAll tl r s` returns the list of possible remainders of `s` after
matching `r` against a prefix of `s`, in Python's backtracking priority
order (alternation: left first; repetition: more iterations first).
`tl` is the length of the whole string being searched, so that the
current position (for `^`) is `tl - s.length`; `s` is always a suffix of
the searched string.  As in Python, an unbounded repetition stops
iterating when an iteration consumes nothing. -/

inductive Rx
  | eps
  | lit (ch : Char)
  | cls (ranges : List (Char × Char)) (negated : Bool)
  | cat (r1 r2 : Rx)
  | alt (r1 r2 : Rx)
  | rep (r : Rx) (lo : Nat) (hi : Option Nat)
  | bol
  | eol
  | look (r : Rx)
deriving DecidableEq, Repr

def inCls (ranges : List (Char × Char)) (ch : Char) : Bool :=
  ranges.any (fun pr => pr.1 ≤ ch ∧ ch ≤ pr.2)


/-- Zero or more greedy iterations of the body matcher `f`, each of
which must consume input (as in Python's engine); `n` bounds the number
of iterations and `remainder length + 1` is always sufficient since
every iteration strictly shrinks the remainder. -/
def starGo (f : List Char → List (List Char)) : Nat → List Char → List (List Char)
  | 0, s => [s]
  | n + 1, s =>
    (((f s).filter (fun s1 => s1.length < s.length)).flatMap
      (fun s1 => starGo f n s1)) ++ [s]

/-- Exactly `n` iterations of the body matcher (the mandatory part of a
counted repetition). -/
def repExactGo (f : List Char → List (List Char)) : Nat → List Char → List (List Char)
  | 0, s => [s]
  | n + 1, s => (f s).flatMap (fun s1 => repExactGo f n s1)

/-- At most `n` further iterations, greedily (more iterations first). -/
def upToGo (f : List Char → List (List Char)) : Nat → List Char → List (List Char)
  | 0, s => [s]
  | n + 1, s => ((f s).flatMap (fun s1 => upToGo f n s1)) ++ [s]

/-- All ways to match `r` against a prefix of `s` (a suffix of the
searched string of total length `tl`), listed as the possible remainders
in Python's backtracking priority order: alternation left first,
repetition greedy (more iterations first), an unbounded repetition only
iterating while it consumes input, as in Python's engine. -/
def matchAll (tl : Nat) : Rx → List Char → List (List Char)
  | .eps, s => [s]
  | .lit ch, s =>
    match s with
    | [] => []
    | d :: rest => if d = ch then [rest] else []
  | .cls ranges negated, s =>
    match s with
    | [] => []
    | d :: rest => if inCls ranges d = negated then [] else [rest]
  | .cat r1 r2, s => (matchAll tl r1 s).flatMap (fun s1 => matchAll tl r2 s1)
  | .alt r1 r2, s => matchAll tl r1 s ++ matchAll tl r2 s
  | .rep r1 lo hi, s =>
    (repExactGo (matchAll tl r1) lo s).flatMap (fun s1 =>
      match hi with
      | none => starGo (matchAll tl r1) (s1.length + 1) s1
      | some h => upToGo (matchAll tl r1) (h - lo) s1)
  | .bol, s => if s.length = tl then [s] else []
  | .eol, s => if s = [] ∨ s = ['\n'] then [s] else []
  | .look r1, s => if matchAll tl r1 s = [] then [] else [s]

/-- A successful search of a `(?P<prefix>…)(?P<value>…)(?P<suffix>…)`
pattern: start offset of the whole match and the lengths of the three
group captures on the first (leftmost, highest-priority) success. -/
structure RxMatch where
  start : Nat
  preLen : Nat
  valLen : Nat
  sufLen : Nat
deriving DecidableEq, Repr

/-- First full success of prefix·value·suffix at the current position,
exploring the three parts in Python's backtracking order. -/
def pvsAt (tl : Nat) (rp rv rs : Rx) (s : List Char) :
    Option (Nat × Nat × Nat) :=
  (matchAll tl rp s).findSome? (fun s1 =>
    (matchAll tl rv s1).findSome? (fun s2 =>
      (matchAll tl rs s2).head?.map (fun s3 =>
        (s.length - s1.length, s1.length - s2.length, s2.length - s3.length))))

def searchPVSGo (tl : Nat) (rp rv rs : Rx) : List Char → Option RxMatch
  | [] =>
    (pvsAt tl rp rv rs []).map (fun k => ⟨tl, k.1, k.2.1, k.2.2⟩)
  | d :: rest =>
    match pvsAt tl rp rv rs (d :: rest) with
    | some k => some ⟨tl - (d :: rest).length, k.1, k.2.1, k.2.2⟩
    | none => searchPVSGo tl rp rv rs rest

/-- `re.search` of a full pattern `(?P<prefix>P)(?P<value>V)(?P<suffix>S)`:
try successive start positions left to right (including the position
just past the last character). -/
def searchPVS (rp rv rs : Rx) (s : List Char) : Option RxMatch :=
  searchPVSGo s.length rp rv rs s

/-- First match of a single regex at the current position: the length it
consumes. -/
def rxAt (tl : Nat) (r : Rx) (s : List Char) : Option Nat :=
  (matchAll tl r s).head?.map (fun s2 => s.length - s2.length)

/-- Replace the span `[start, start+len)` of `s` by `repl`. -/
def spliceAt (s : List Char) (start len : Nat) (repl : List Char) :
    List Char :=
  s.take start ++ repl ++ s.drop (start + len)

/-- `re.sub(r, repl, s)` (all occurrences): scan left to right; at each
position take the leftmost match, emit `repl` in its place and continue
after the matched span; on a zero-width match emit `repl`, then the
current character, and continue (Python advances by one after an empty
match).  The patterns this is used with contain no `^` anchor, so each
suffix is matched as a fresh string.  `skip` counts characters of an
already-replaced span still to drop. -/
def subAllGo (r : Rx) (repl : List Char) : Nat → List Char → List Char
  | _, [] =>
    match rxAt 0 r [] with
    | some _ => repl
    | none => []
  | skip + 1, _ :: rest => subAllGo r repl skip rest
  | 0, d :: rest =>
    match rxAt (d :: rest).length r (d :: rest) with
    | none => d :: subAllGo r repl 0 rest
    | some 0 => repl ++ d :: subAllGo r repl 0 rest
    | some (len + 1) => repl ++ subAllGo r repl len rest

def subAllRx (r : Rx) (repl : List Char) (s : List Char) : List Char :=
  subAllGo r repl 0 s

/-! ### Component A: `pattern_extraction.extract_context_affixed_values`

A pattern-table row.  The three regex fragments are embedded as `Rx`
values; the `full_pattern` column written by the function (the string
concatenation `"(?P<prefix>" + prefix + ")(?P<value>" + value +
")(?P<suffix>" + suffix + ")"`) is embedded structurally as the triple
of the three fragments.  `matchType` is `none` for tables that lack the
`match_type` column (the component-parsing instruction tables). -/
structure PatternRow where
  patternName : List Char
  matchType : Option (List Char)
  rxPre : Rx
  rxVal : Rx
  rxSuf : Rx
  fullPat : Option (Rx × Rx × Rx)
deriving DecidableEq, Repr

/-- Line 64 of `pattern_extraction.py`: write the `full_pattern` column
into the (caller's) pattern table. -/
def setFullPat (row : PatternRow) : PatternRow :=
  { row with fullPat := some (row.rxPre, row.rxVal, row.rxSuf) }

/-- One output row of `extract_context_affixed_values`. -/
structure ExtrRow where
  pos : Nat
  patternName : List Char
  value : List Char
deriving DecidableEq, Repr

/-- The default mask:
twenty underscores, `%PATTERN_NAME%:%ORDER%`, twenty underscores. -/
def maskTemplateDefault : List Char :=
  List.replicate 20 '_' ++ "%PATTERN_NAME%:%ORDER%".toList ++
    List.replicate 20 '_'

/-- `str(n).zfill(3)`. -/
def zfill3 (n : Nat) : List Char :=
  let ds := Nat.toDigits 10 n
  List.replicate (3 - ds.length) '0' ++ ds

/-- Build the concrete mask for discovery index `k` of pattern `name`:
`re.sub("%ORDER%", "%ORDER=<k, zero filled>%", mask)` followed by
`re.sub("%PATTERN_NAME%", "%PATTERN_NAME=<name>%", …)`. -/
def buildMask (tmpl name : List Char) (k : Nat) : List Char :=
  subLit "%PATTERN_NAME%".toList ("%PATTERN_NAME=".toList ++ name ++ ['%'])
    (subLit "%ORDER%".toList ("%ORDER=".toList ++ zfill3 k ++ ['%']) tmpl)

/-- Whether `pat` occurs as a contiguous substring of `s`
(`re.search` with a literal pattern, used for the mask validation). -/
def hasInfix (pat : List Char) : List Char → Bool
  | [] => pat.isPrefixOf []
  | d :: rest => pat.isPrefixOf (d :: rest) ∨ hasInfix pat rest

/-- A discovery record: `(pattern_name, captured value)` in discovery
order; the position in `extracted` is the mask's `%ORDER%` number. -/
structure DiscRec where
  name : List Char
  value : List Char
deriving DecidableEq, Repr

/-- The `while (n_tries < n_max_tries_per_pattern and re.search(…))`
loop for one pattern row: search, record the `value` group, raise
`ValueError` once 1000 values have been extracted from this text,
replace the matched span by the mask (`re.sub(…, count Eq 1)`), and
repeat. -/
def patLoop (row : PatternRow) (tmpl : List Char) :
    Nat → List Char → List DiscRec → Except PyErr (List Char × List DiscRec)
  | 0, textElem, acc => .ok (textElem, acc)
  | fuel + 1, textElem, acc =>
    match searchPVS row.rxPre row.rxVal row.rxSuf textElem with
    | none => .ok (textElem, acc)
    | some m =>
      let v := (textElem.drop (m.start + m.preLen)).take m.valLen
      let acc2 := acc ++ [⟨row.patternName, v⟩]
      if 1000 ≤ acc2.length then
        .error (.valueError
          "Looks like you had at least 1000 matches in string which is not supported.".toList)
      else
        patLoop row tmpl fuel
          (spliceAt textElem m.start (m.preLen + m.valLen + m.sufLen)
            (buildMask tmpl row.patternName (acc2.length - 1)))
          acc2

/-- All pattern rows, in table order, against one text element. -/
def perText (rows : List PatternRow) (tmpl : List Char) (cap : Nat)
    (textElem : List Char) : Except PyErr (List Char × List DiscRec) :=
  rows.foldlM (fun st row => patLoop row tmpl cap st.1 st.2) (textElem, [])

def isDigit09 (ch : Char) : Bool := '0' ≤ ch ∧ ch ≤ '9'

def digitsToNat (ds : List Char) : Nat :=
  ds.foldl (fun acc ch => acc * 10 + (ch.toNat - '0'.toNat)) 0

/-- `re.findall("%ORDER=[0-9]+%", text)` followed by
`int(re.search("[0-9]+", m).group(0))` per match: scan left to right for
non-overlapping occurrences of `%ORDER=` + digits + `%` and return the
numbers.  `skip` counts characters of a found token still to pass
over. -/
def ordTokensGo : Nat → List Char → List Nat
  | _, [] => []
  | skip + 1, _ :: rest => ordTokensGo skip rest
  | 0, d :: rest =>
    if "%ORDER=".toList.isPrefixOf (d :: rest) then
      let ds := ((d :: rest).drop 7).takeWhile isDigit09
      if ds ≠ [] ∧ ((d :: rest).drop (7 + ds.length)).head? = some '%' then
        digitsToNat ds :: ordTokensGo (7 + ds.length + 1 - 1) rest
      else
        ordTokensGo 0 rest
    else
      ordTokensGo 0 rest

def ordTokens (s : List Char) : List Nat :=
  ordTokensGo 0 s

/-- Embedding of `extract_context_affixed_values`.

The function first validates the mask (it must contain `%ORDER%`; an
absent or empty `mask` argument falls back to the default, as `if not
mask` is false for both `None` and `""`), then writes the
`full_pattern` column into the caller's pattern table — the mutated
table is the second component of the result, embedding the in-place
update of the `pattern_dt` argument — and processes the texts one by
one.  A falsy text element (`None` or the empty string) contributes
nothing.  For each text with at least one discovery, the discovery rows
are reordered by scanning the masked text left to right for
`%ORDER=k%` tokens (`dt.loc[order_in_text]`); a token number with no
discovery row is a pandas `KeyError`. -/
def extractCAV (texts : List (Option (List Char))) (pdt : List PatternRow)
    (maskOpt : Option (List Char)) (cap : Nat) :
    Except PyErr (List ExtrRow × List PatternRow) := do
  let tmpl := match maskOpt with
    | some (mc :: mrest) => mc :: mrest
    | _ => maskTemplateDefault
  if ¬ hasInfix "%ORDER%".toList tmpl then
    .error (.valueError "Mask should contain %ORDER%.".toList)
  else
    let pdt2 := pdt.map setFullPat
    let rows ← texts.enum.foldlM (fun acc pr => do
      match pr.2 with
      | none => pure acc
      | some [] => pure acc
      | some (tc :: trest) => do
        let st ← perText pdt2 tmpl cap (tc :: trest)
        if st.2 = [] then
          pure acc
        else
          let ordered ← (ordTokens st.1).mapM (fun k =>
            match st.2.get? k with
            | some rec => pure (⟨pr.1, rec.name, rec.value⟩ : ExtrRow)
            | none => Except.error (.keyError "order token without a matching row".toList))
          pure (acc ++ ordered)) ([] : List ExtrRow)
    pure (rows, pdt2)

/-- A stable insertion sort (used for the embeddings of
`pivot_table`'s key ordering and `sort_values`; all the sort keys in
this development are unique or tupled with the original row index, so
any stable sort realizes the pandas ordering). -/
def insertLe (le : α → α → Bool) (x : α) : List α → List α
  | [] => [x]
  | y :: rest => if le x y then x :: y :: rest else y :: insertLe le x rest

def insSortBy (le : α → α → Bool) : List α → List α
  | [] => []
  | x :: rest => insertLe le x (insSortBy le rest)

/-! ### Component B: `gleason_extraction.parse_gleason_value_string_elements`

The fixed component-parsing instruction tables
(`component_parsing_instructions_by_match_type`), with their regexes
compiled to `Rx`. -/

/-- A literal string as a regex (concatenation of literals). -/
def litSeq (s : List Char) : Rx :=
  s.foldr (fun ch acc => Rx.cat (Rx.lit ch) acc) Rx.eps

/-- `re_abt`: `[3-5]`. -/
def reAbt : Rx := .cls [('3', '5')] false

/-- `re_c`: `([6-9]|10)`. -/
def reC : Rx := .alt (.cls [('6', '9')] false) (.cat (.lit '1') (.lit '0'))

/-- `re_plus`: `[^0-9+,(]?[+,][^0-9+,]?`. -/
def rePlus : Rx :=
  .cat (.rep (.cls [('0', '9'), ('+', '+'), (',', ','), ('(', '(')] true) 0 (some 1))
    (.cat (.cls [('+', '+'), (',', ',')] false)
      (.rep (.cls [('0', '9'), ('+', '+'), (',', ',')] true) 0 (some 1)))

/-- `re_mask_prefix`: `_`. -/
def reMaskPre : Rx := .lit '_'

/-- `re_nonmask_prefix`: `(^|[^_])`. -/
def reNonmaskPre : Rx := .alt .bol (.cls [('_', '_')] true)

/-- `re_nonmask_nonplus_prefix`: `(^|[^_+])`. -/
def reNonmaskNonplusPre : Rx := .alt .bol (.cls [('_', '_'), ('+', '+')] true)

/-- `re_nonmask_digit_suffix`: `($|(?=[^%0-9]))`. -/
def reNonmaskDigitSuf : Rx :=
  .alt .eol (.look (.cls [('%', '%'), ('0', '9')] true))

def abtcDt : List PatternRow :=
  [⟨"a".toList, none, reNonmaskNonplusPre, reAbt, rePlus, none⟩,
   ⟨"b".toList, none, reMaskPre, reAbt, reNonmaskDigitSuf, none⟩,
   ⟨"t".toList, none, rePlus, reAbt, reNonmaskDigitSuf, none⟩,
   ⟨"c".toList, none, reNonmaskNonplusPre, reC, reNonmaskDigitSuf, none⟩]

def abcDt : List PatternRow :=
  [⟨"a".toList, none, reNonmaskPre, reAbt, rePlus, none⟩,
   ⟨"b".toList, none, reMaskPre, reAbt, .eps, none⟩,
   ⟨"c".toList, none, .eps, reC, .eps, none⟩]

def abtDt : List PatternRow :=
  [⟨"a".toList, none, reNonmaskPre, reAbt, rePlus, none⟩,
   ⟨"b".toList, none, reMaskPre, reAbt, rePlus, none⟩,
   ⟨"t".toList, none, reMaskPre, reAbt, .eps, none⟩]

def abDt : List PatternRow :=
  [⟨"a".toList, none, reNonmaskPre, reAbt, rePlus, none⟩,
   ⟨"b".toList, none, reMaskPre, reAbt, .eps, none⟩]

def acDt : List PatternRow :=
  [⟨"a".toList, none, reNonmaskPre, reAbt, .eps, none⟩,
   ⟨"c".toList, none, reNonmaskPre, reC, .eps, none⟩]

def aDt : List PatternRow :=
  [⟨"a".toList, none, reNonmaskPre, reAbt, reNonmaskDigitSuf, none⟩]

def bDt : List PatternRow :=
  [⟨"b".toList, none, reNonmaskPre, reAbt, reNonmaskDigitSuf, none⟩]

def tDt : List PatternRow :=
  [⟨"t".toList, none, reNonmaskPre, reAbt, reNonmaskDigitSuf, none⟩]

def cDt : List PatternRow :=
  [⟨"c".toList, none, reNonmaskPre, reC, reNonmaskDigitSuf, none⟩]

/-- `component_parsing_instructions_by_match_type()`:
match type, instruction table, `n_max_tries_per_pattern`.  (Python
returns a dict; the embedding lists the entries in insertion order.
The iteration order over the dict keys does not affect the final,
sorted output of `parse_gleason_value_string_elements`.) -/
def instructionList : List (List Char × List PatternRow × Nat) :=
  [("kw_all_a".toList, aDt, 1),
   ("a + b + t = c".toList, abtcDt, 10),
   ("a + b + t".toList, abtDt, 10),
   ("a + b = c".toList, abcDt, 10),
   ("a + b".toList, abDt, 10),
   ("a...c".toList, acDt, 10),
   ("a".toList, aDt, 10),
   ("b".toList, bDt, 10),
   ("c".toList, cDt, 10),
   ("t".toList, tDt, 10)]

/-- A parsed observation (one output row of
`parse_gleason_value_string_elements`). -/
structure PRow where
  pos : Nat
  matchType : List Char
  a : Option Int
  b : Option Int
  t : Option Int
  c : Option Int
  warning : Option (List Char)
deriving DecidableEq, Repr

/-- Python `int(str)` for the extracted value strings (an optional sign
followed by digits); anything else raises `ValueError` at
`astype('int')`. -/
def pyInt? (s : List Char) : Option Int :=
  match s with
  | '-' :: ds => if ds ≠ [] ∧ ds.all isDigit09 then some (-(digitsToNat ds : Int)) else none
  | ds => if ds ≠ [] ∧ ds.all isDigit09 then some (digitsToNat ds : Int) else none

/-- `x + '||' + msg if x else msg`: append to a warning string (`None`
and the empty string are falsy). -/
def appendWarning (w : Option (List Char)) (msg : List Char) :
    Option (List Char) :=
  match w with
  | some (wc :: wrest) => some ((wc :: wrest) ++ "||".toList ++ msg)
  | _ => some msg

/-- Column lookup by pattern name for the pivoted table. -/
def prowField (r : PRow) (n : List Char) : Option Int :=
  if n = "a".toList then r.a
  else if n = "b".toList then r.b
  else if n = "t".toList then r.t
  else if n = "c".toList then r.c
  else none

def prowSetField (r : PRow) (n : List Char) (v : Option Int) : PRow :=
  if n = "a".toList then { r with a := v }
  else if n = "b".toList then { r with b := v }
  else if n = "t".toList then { r with t := v }
  else if n = "c".toList then { r with c := v }
  else r

/-- Lexicographic order on `(pos, duplicate_id)` keys. -/
def keyLe (k1 k2 : Nat × Nat) : Bool :=
  k1.1 < k2.1 ∨ (k1.1 = k2.1 ∧ k1.2 ≤ k2.2)

/-- The body of the `for match_type in match_type_set` loop for one
match type `mt`:

* select the value strings whose match type is `mt` (preserving order),
  with parentheses removed (`re.sub("[()]", "", …)`);
* run `extract_context_affixed_values` with the instruction table;
* number duplicates per `(pos, pattern_name)` (`cumcount() + 1`),
  convert values to int (`astype('int')`), and pivot to one row per
  `(pos, duplicate_id)` key in ascending key order with one column per
  extracted pattern name;
* map `pos` back through `idx_list` and attach `match_type` and the
  match-type / missing-value warnings. -/
def parseForType (valueStrings : List (List Char))
    (matchTypes : List (Option (List Char))) (mt : List Char)
    (tbl : List PatternRow) (cap : Nat) : Except PyErr (List PRow) := do
  let idxList := (matchTypes.enum.filter (fun pr => pr.2 = some mt)).map (·.1)
  if idxList = [] then
    pure []
  else
    let textList := idxList.map (fun i =>
      ((valueStrings.get? i).getD []).filter (fun ch => ch ≠ '(' ∧ ch ≠ ')'))
    let (rows, _) ← extractCAV (textList.map some) tbl none cap
    if rows = [] then
      pure []
    else
      let vals ← rows.mapM (fun r =>
        match pyInt? r.value with
        | some n => pure n
        | none => Except.error
            (.valueError "invalid literal for int with base 10".toList))
      let recs := (rows.enum.zip vals).map (fun pr =>
        let j := pr.1.1
        let r := pr.1.2
        let dup := ((rows.take j).filter (fun r2 =>
          r2.pos = r.pos ∧ r2.patternName = r.patternName)).length + 1
        (r.pos, dup, r.patternName, pr.2))
      let keys := ((recs.map (fun rec => (rec.1, rec.2.1))).dedup) |> insSortBy keyLe
      let baseRows := keys.map (fun k =>
        let row0 : PRow :=
          { pos := (idxList.get? k.1).getD 0, matchType := mt,
            a := none, b := none, t := none, c := none, warning := none }
        (tbl.map (·.patternName)).foldl (fun r n =>
          match recs.find? (fun rec =>
              rec.1 = k.1 ∧ rec.2.1 = k.2 ∧ rec.2.2.1 = n) with
          | some rec => prowSetField r n (some rec.2.2.2)
          | none => r) row0)
      let instrNames := tbl.map (·.patternName)
      let extrNames := (rows.map (·.patternName)).dedup
      let setsEq := instrNames.all (fun n => n ∈ extrNames) ∧
        extrNames.all (fun n => n ∈ instrNames)
      let mismatchW := "!`".toList ++ mt ++ "`".toList
      let typeW := "match type `".toList ++ mt ++ "` problem".toList
      if setsEq then
        let anyNa := fun (r : PRow) => instrNames.any (fun n => (prowField r n).isNone)
        if baseRows.any anyNa then
          let rows3 := baseRows.map (fun r =>
            if anyNa r then { r with warning := appendWarning r.warning mismatchW } else r)
          pure (rows3.map (fun r => { r with warning := appendWarning r.warning typeW }))
        else
          pure baseRows
      else
        let anyNa := fun (r : PRow) => extrNames.any (fun n => (prowField r n).isNone)
        let rows3 := baseRows.map (fun r =>
          { r with warning := appendWarning r.warning typeW })
        if rows3.any anyNa then
          pure (rows3.map (fun r =>
            if anyNa r then { r with warning := appendWarning r.warning mismatchW } else r))
        else
          pure rows3

/-- Embedding of `parse_gleason_value_string_elements`.

`parsed_dt` starts as `None` and is only assigned inside the loop when a
match type produced a non-empty table; when no component value was
parsed from any value string the final `parsed_dt['pos']` subscripts
`None`, which raises `TypeError`.  After the loop, `kw_all_a` rows copy
`a` into `b`, and the rows are ordered by `pos`, keeping the
accumulation order within equal `pos` (`sort_values(by=['pos',
'temp_index'])`). -/
def parseGleasonValueStringElements (valueStrings : List (List Char))
    (matchTypes : List (Option (List Char))) : Except PyErr (List PRow) := do
  if valueStrings.length ≠ matchTypes.length then
    .error (.valueError "Lengths do not match".toList)
  else
    let parsedOpt ← instructionList.foldlM (fun acc entry => do
      let rows ← parseForType valueStrings matchTypes entry.1 entry.2.1 entry.2.2
      match rows with
      | [] => pure acc
      | pc :: prest =>
        match acc with
        | none => pure (some (pc :: prest))
        | some old => pure (some (old ++ pc :: prest)))
      (none : Option (List PRow))
    match parsedOpt with
    | none => .error (.typeError "NoneType object is not subscriptable".toList)
    | some rows =>
      let rows2 := rows.map (fun r =>
        if r.matchType = "kw_all_a".toList then { r with b := r.a } else r)
      let sorted := (insSortBy (fun (p1 p2 : Nat × PRow) =>
        p1.2.pos < p2.2.pos ∨ (p1.2.pos = p2.2.pos ∧ p1.1 ≤ p2.1)) rows2.enum).map (·.2)
      pure sorted

/-! ### Text preparation: `rm_false_positives` and `prepare_text`

The regex "lego blocks" of `gleason_extraction.py` that these two
functions use, compiled to `Rx`. -/

/-- Alternation of a list (`"|".join`, left-to-right priority).  The
source never builds an empty alternation; the `[]` case is an
unmatchable class. -/
def altList : List Rx → Rx
  | [] => .cls [] false
  | [r] => r
  | r :: r2 :: rest => .alt r (altList (r2 :: rest))

/-- `[ ]?`. -/
def optSpace : Rx := .rep (.cls [(' ', ' ')] false) 0 (some 1)

/-- `word_suffices` and `one_arbitrary_natural_language_word`:
`[.a-zåäö]*`. -/
def wordSufficesRx : Rx :=
  .rep (.cls [('.', '.'), ('a', 'z'), ('å', 'å'), ('ä', 'ä'), ('ö', 'ö')] false) 0 none

/-- `optional_word_sep`: `[ ,-]{0,2}`. -/
def optionalWordSepRx : Rx :=
  .rep (.cls [(' ', ' '), (',', ','), ('-', '-')] false) 0 (some 2)

/-- `whitelist_sep()`: `([ ,-]{0,2}| ja | tai | och | eller )`. -/
def whitelistSepRx : Rx :=
  altList [optionalWordSepRx, litSeq " ja ".toList, litSeq " tai ".toList,
    litSeq " och ".toList, litSeq " eller ".toList]

/-- `match_count` argument: `"+"` is `rep 1 ∞`, `"*"` is `rep 0 ∞`. -/
def repByCount (plusCount : Bool) (r : Rx) : Rx :=
  if plusCount then .rep r 1 none else .rep r 0 none

/-- `whitelist_to_whitelist_regex`:
`"((" + "|".join(whitelist) + ")" + whitelist_sep() + ")" + match_count`. -/
def whitelistToWhitelistRx (whitelist : List Rx) (plusCount : Bool) : Rx :=
  repByCount plusCount (.cat (altList whitelist) whitelistSepRx)

/-- `word_whitelist_to_word_whitelist_regex`:
`"((" + "|".join(whitelist) + ")" + word_suffices + whitelist_sep() + ")" + match_count`. -/
def wordWhitelistToWordWhitelistRx (whitelist : List (List Char))
    (plusCount : Bool) : Rx :=
  repByCount plusCount
    (.cat (altList (whitelist.map litSeq)) (.cat wordSufficesRx whitelistSepRx))

/-- `number_range`: `[0-9]+[ ]?[-][ ]?[0-9]+`. -/
def numberRangeRx : Rx :=
  .cat (.rep (.cls [('0', '9')] false) 1 none)
    (.cat optSpace (.cat (.lit '-')
      (.cat optSpace (.rep (.cls [('0', '9')] false) 1 none))))

/-- `number_range_in_parenthesis`: `\([ ]?` + number range + `[ ]?\)`. -/
def numberRangeInParenRx : Rx :=
  .cat (.lit '(') (.cat optSpace (.cat numberRangeRx (.cat optSpace (.lit ')'))))

/-- `arbitrary_expression_in_parenthesis`: `\([^)]*\)`. -/
def arbitraryExprInParenRx : Rx :=
  .cat (.lit '(') (.cat (.rep (.cls [(')', ')')] true) 0 none) (.lit ')'))

/-- `whitelist_scoreword`. -/
def whitelistScoreword : List (List Char) :=
  ["pist".toList, "tyyp".toList, "luok".toList, "score".toList, "gr".toList,
   "lk".toList, "kl".toList, "mö".toList, "kuvio".toList, "arkkitehtuuri".toList]

def whitelistScorewordRx : Rx :=
  wordWhitelistToWordWhitelistRx whitelistScoreword true

/-- `whitelist_gleason_word`: `gl[aei]{1,2}s{1,2}[oi]n[a-zåäö]*`. -/
def whitelistGleasonWordRx : Rx :=
  .cat (.lit 'g') (.cat (.lit 'l')
    (.cat (.rep (.cls [('a', 'a'), ('e', 'e'), ('i', 'i')] false) 1 (some 2))
      (.cat (.rep (.lit 's') 1 (some 2))
        (.cat (.cls [('o', 'o'), ('i', 'i')] false)
          (.cat (.lit 'n')
            (.rep (.cls [('a', 'z'), ('å', 'å'), ('ä', 'ä'), ('ö', 'ö')] false) 0 none))))))

/-- `whitelist_base_optional` and its `*`-counted whitelist regex. -/
def whitelistBaseOptionalRx : Rx :=
  whitelistToWhitelistRx
    [whitelistScorewordRx, .cat (.lit 'n') wordSufficesRx,
     numberRangeInParenRx, arbitraryExprInParenRx] false

/-- `base_gleason_regex`. -/
def baseGleasonRx : Rx :=
  .cat whitelistGleasonWordRx (.cat optionalWordSepRx whitelistBaseOptionalRx)

/-- First removal pattern of `rm_false_positives`:
`base_gleason_regex + "[ ]?4[ ](ja|tai|or|och|eller)[ ]5"`. -/
def rmGleason45Rx : Rx :=
  .cat baseGleasonRx (.cat optSpace (.cat (.lit '4') (.cat (.lit ' ')
    (.cat (altList [litSeq "ja".toList, litSeq "tai".toList, litSeq "or".toList,
      litSeq "och".toList, litSeq "eller".toList])
      (.cat (.lit ' ') (.lit '5'))))))

/-- Embedding of `rm_false_positives`: three `re.sub(pat, "", x)`. -/
def rmFalsePositives (x : List Char) : List Char :=
  subAllRx rmGleason45Rx []
    (x) |> subAllRx (.cat (litSeq "fokaalinen syöpä ".toList) arbitraryExprInParenRx) []
    |> subAllRx (litSeq "(gleason score 6 tai alle)".toList) []

/-- `\([^0-9]+\)`. -/
def parenNonDigitRx : Rx :=
  .cat (.lit '(') (.cat (.rep (.cls [('0', '9')] true) 1 none) (.lit ')'))

/-- `\([ ]*[0-9]+[ ]*%[ ]*\)`. -/
def parenPercentRx : Rx :=
  .cat (.lit '(') (.cat (.rep (.cls [(' ', ' ')] false) 0 none)
    (.cat (.rep (.cls [('0', '9')] false) 1 none)
      (.cat (.rep (.cls [(' ', ' ')] false) 0 none)
        (.cat (.lit '%') (.cat (.rep (.cls [(' ', ' ')] false) 0 none) (.lit ')'))))))

/-- `re_field_name_gleason_range`:
`[(][ ]*` + gleason word + `[^0-9]*` + `[5-9][ ]*[-][ ]*([6-9]|(10))` +
`[ ]*[)]`. -/
def fieldNameGleasonRangeRx : Rx :=
  .cat (.lit '(') (.cat (.rep (.cls [(' ', ' ')] false) 0 none)
    (.cat whitelistGleasonWordRx
      (.cat (.rep (.cls [('0', '9')] true) 0 none)
        (.cat (.cls [('5', '9')] false)
          (.cat (.rep (.cls [(' ', ' ')] false) 0 none)
            (.cat (.lit '-')
              (.cat (.rep (.cls [(' ', ' ')] false) 0 none)
                (.cat (.alt (.cls [('6', '9')] false) (.cat (.lit '1') (.lit '0')))
                  (.cat (.rep (.cls [(' ', ' ')] false) 0 none) (.lit ')'))))))))))

/-- Embedding of `prepare_text`: normalise, remove false positives,
drop parenthesised non-digit expressions and `"(45 %)"`-style
expressions, drop `"(Gleason score 9-10)"`-style field names, and
collapse space runs. -/
def prepareText (x : List Char) : List Char :=
  let x1 := rmFalsePositives (normaliseText x)
  let x2 := subAllRx parenNonDigitRx " ".toList x1
  let x3 := subAllRx parenPercentRx " ".toList x2
  let x4 := subAllRx fieldNameGleasonRangeRx " ".toList x3
  subAllRx (.rep (.cls [(' ', ' ')] false) 1 none) " ".toList x4

/-! ### `utils.typed_format_dt_to_standard_format_dt` and Component C -/

/-- One row of the typed-format table (the embedding keeps the value
columns, identifiers and warning; `int/float` columns with `NaN` are
`Option Int`). -/
structure TRow where
  textId : Int
  obsId : Int
  matchType : Option (List Char)
  a : Option Int
  b : Option Int
  t : Option Int
  c : Option Int
  warning : Option (List Char)
deriving DecidableEq, Repr

/-- `dt[['a','b','t','c']].notnull().sum(axis=1) = 1` for one row. -/
def exactlyOneVal (r : TRow) : Bool :=
  ((if r.a.isSome then 1 else 0) + (if r.b.isSome then 1 else 0) +
    (if r.t.isSome then 1 else 0) + (if r.c.isSome then 1 else 0) : Nat) = 1

/-- `find_non_na_elem`: the first non-null column name in the order
`a`, `b`, `t`, `c` (with exactly one non-null value present this is that
value's column). -/
def rowType (r : TRow) : Elem :=
  if r.a.isSome then .a
  else if r.b.isSome then .b
  else if r.t.isSome then .t
  else .c

/-- Embedding of `determine_element_combinations` (the check that `dt`
does not already have `grp`/`grp_type`/`type` columns is structural in
the embedding — a `TRow` has no such fields).  Returns each row paired
with its `grp` value. -/
def determineElementCombinations (rows : List TRow) (nMaxEach : Nat) :
    Except PyErr (List (TRow × Nat)) :=
  if rows.all exactlyOneVal then
    .ok (rows.zip (assignGroups (rows.map rowType) nMaxEach))
  else
    .error (.valueError
      "There has to be exactly one non-nan a/b/t/c value per row".toList)

/-- Embedding of the local function `combine_groups`: collect the
non-null `a`, `b`, `t`, `c` values of the group in row order, set
`n` to the largest count, and write value `i` of each column into the
`i`-th of the first `n` rows (missing values become null, as
`pd.concat(axis=1)` aligns the value columns by position). -/
def combineGroupsT (mem : List TRow) : List TRow :=
  let as := mem.filterMap (fun r => r.a)
  let bs := mem.filterMap (fun r => r.b)
  let ts := mem.filterMap (fun r => r.t)
  let cs := mem.filterMap (fun r => r.c)
  let n := max (max as.length bs.length) (max ts.length cs.length)
  (mem.take n).enum.map (fun pr =>
    { pr.2 with a := as.get? pr.1, b := bs.get? pr.1,
                t := ts.get? pr.1, c := cs.get? pr.1 })

/-- One output row of `extract_gleason_scores` (and of
`typed_format_dt_to_standard_format_dt`, which drops the `match_type`
column). -/
structure OutRow where
  textId : Int
  obsId : Int
  a : Option Int
  b : Option Int
  t : Option Int
  c : Option Int
  warning : Option (List Char)
deriving DecidableEq, Repr

def trowToOutRow (r : TRow) : OutRow :=
  ⟨r.textId, r.obsId, r.a, r.b, r.t, r.c, r.warning⟩

/-- `match_type` values accepted by
`typed_format_dt_to_standard_format_dt` (plus `NaN`). -/
def allowedMatchTypes : List (List Char) :=
  ["a".toList, "b".toList, "c".toList, "t".toList, "a + b".toList,
   "a + b = c".toList, "a + b + t = c".toList, "a + b + t".toList,
   "kw_all_a".toList]

/-- `match_type` is one of `a`, `b`, `t`, `c` (NaN is not;
`isin(["a","b","t","c"])`). -/
def isSingleElemType (r : TRow) : Bool :=
  r.matchType = some "a".toList ∨ r.matchType = some "b".toList ∨
  r.matchType = some "t".toList ∨ r.matchType = some "c".toList

def trowKeyLe (r1 r2 : TRow) : Bool :=
  r1.textId < r2.textId ∨ (r1.textId = r2.textId ∧ r1.obsId ≤ r2.obsId)

/-- Split the sorted single-element rows into the temporary processing
groups: a new group starts at the first row, wherever
`obs_id[i] - obs_id[i-1] > 1`, and — through the regrouping by
`(text_id, .__processing_grp)` — wherever the text changes. -/
def splitProcessingGroups (rows : List TRow) : List (List TRow) :=
  rows.foldl (fun acc r =>
    match acc.getLast? with
    | none => [[r]]
    | some lastGrp =>
      match lastGrp.getLast? with
      | none => acc.dropLast ++ [[r]]
      | some prev =>
        if prev.textId = r.textId ∧ r.obsId - prev.obsId ≤ 1 then
          acc.dropLast ++ [lastGrp ++ [r]]
        else
          acc ++ [[r]]) []

/-- Group the rows of one processing group by their `grp` id (ids are
contiguous from 0 in order of first appearance) and combine each
group. -/
def combineProcessingGroup (pairs : List (TRow × Nat)) : List TRow :=
  let m := (pairs.map (fun pr => pr.2)).foldl max 0
  (List.range (m + 1)).flatMap (fun g =>
    combineGroupsT ((pairs.filter (fun pr => pr.2 = g)).map (fun pr => pr.1)))

/-- Embedding of `typed_format_dt_to_standard_format_dt`. -/
def typedFormatDtToStandardFormatDt (dt : List TRow) :
    Except PyErr (List OutRow) := do
  if ¬ (dt.map (fun r => r.obsId)).Nodup then
    .error (.valueError "obs_id need to be unique".toList)
  else if ¬ dt.all (fun r =>
      r.matchType = none ∨
      (r.matchType.getD []) ∈ allowedMatchTypes) then
    .error (.valueError "Match type need to be among the allowed ones".toList)
  else if ¬ dt.all (fun r =>
      r.a.isSome ∨ r.b.isSome ∨ r.t.isSome ∨ r.c.isSome) then
    .error (.valueError
      "There has to be at least one non-nan a/b/t/c value per row".toList)
  else
    let elemDt := insSortBy trowKeyLe (dt.filter isSingleElemType)
    let others := dt.filter (fun r => ¬ isSingleElemType r)
    if elemDt = [] then
      pure ((insSortBy (fun (p1 p2 : Nat × OutRow) =>
        p1.2.textId < p2.2.textId ∨ (p1.2.textId = p2.2.textId ∧
          (p1.2.obsId < p2.2.obsId ∨ (p1.2.obsId = p2.2.obsId ∧ p1.1 ≤ p2.1))))
        (others.map trowToOutRow).enum).map (fun pr => pr.2))
    else do
      let combined ← (splitProcessingGroups elemDt).foldlM (fun acc grp => do
        let pairs ← determineElementCombinations grp 6
        pure (acc ++ combineProcessingGroup pairs)) ([] : List TRow)
      let out := (combined.map trowToOutRow) ++ (others.map trowToOutRow)
      pure ((insSortBy (fun (p1 p2 : Nat × OutRow) =>
        p1.2.textId < p2.2.textId ∨ (p1.2.textId = p2.2.textId ∧
          (p1.2.obsId < p2.2.obsId ∨ (p1.2.obsId = p2.2.obsId ∧ p1.1 ≤ p2.1))))
        out.enum).map (fun pr => pr.2))

/-! ### Component D: `gleason_extraction.extract_gleason_scores` -/

def instructionKeys : List (List Char) :=
  instructionList.map (fun entry => entry.1)

/-- Lines 753–758: flag rows whose `a`, `b` and `c` are all non-null but
violate `a + b = c` (rows with any of the three missing are excluded by
the `isna().any(axis=1)` mask). -/
def addScoreWarnings (rows : List OutRow) : List OutRow :=
  rows.map (fun r =>
    match r.a, r.b, r.c with
    | some va, some vb, some vc =>
      if va + vb ≠ vc then
        { r with warning := appendWarning r.warning "a + b != c".toList }
      else r
    | _, _, _ => r)

/-- `groupby("text_id").cumcount() + 1` plus `text_id * 1000`: the
`obs_id` of each row, numbering rows of the same text in row order. -/
def numberObs (tids : List Int) : List Int :=
  tids.enum.map (fun pr =>
    ((tids.take pr.1).filter (fun tid => tid = pr.2)).length + 1 + pr.2 * 1000)

/-- `dict(zip(pattern_name, match_type))`: later duplicate names
overwrite earlier ones; a name absent from the table maps to `NaN`. -/
def matchTypeOf (pdt : List PatternRow) (nm : List Char) : Option (List Char) :=
  (pdt.reverse.find? (fun row => row.patternName = nm)).bind (fun row => row.matchType)

/-- Embedding of `extract_gleason_scores`.

The validation order follows the source: unique `text_ids`, then the
`format` check (only `"standard"` is implemented — the signature's
`"typed"` is rejected here), then the length check, the (unreachable)
`format in ["standard", "typed"]` check and the match-type check.  The
`isinstance` checks are structural in the typed embedding.

Processing: falsy texts (`None`/`""`) become `None`, others are passed
through `prepare_text`; `extract_context_affixed_values` runs with the
caller's table (mutating it — the second component of the result is the
caller's table after the call); the parsed observations get text and
observation ids, rows with out-of-range values are dropped, the typed
format is converted to the standard format, and the `a + b != c`
warnings are attached.  (The `orig_obs_id` helper column and the unused
`id_dt` dict of the source are dropped by the column selection in
`typed_format_dt_to_standard_format_dt` and are not modelled.) -/
def extractGleasonScores (texts : List (Option (List Char)))
    (textIds : List Int) (format : List Char) (pdt : List PatternRow) :
    Except PyErr (List OutRow × List PatternRow) := do
  if ¬ (textIds.Nodup) then
    .error (.valueError "text ids must be unique".toList)
  else if format ≠ "standard".toList then
    .error (.valueError "Only standard format is implemented.".toList)
  else if texts.length ≠ textIds.length then
    .error (.valueError "Number of texts and ids do not match".toList)
  else if ¬ (format = "standard".toList ∨ format = "typed".toList) then
    .error (.valueError "Format not supported.".toList)
  else if ¬ pdt.all (fun row => (row.matchType.getD []) ∈ instructionKeys) then
    .error (.valueError "Match type did not exist in instructions.".toList)
  else do
    let texts2 := texts.map (fun t =>
      match t with
      | some (tc :: trest) => some (prepareText (tc :: trest))
      | _ => none)
    let (extr, pdt2) ← extractCAV texts2 pdt none 100
    let extrMts := extr.map (fun e => matchTypeOf pdt2 e.patternName)
    let extrTids := extr.map (fun e => textIds.getD e.pos 0)
    let extrObs := numberObs extrTids
    let parsed ← parseGleasonValueStringElements (extr.map (fun e => e.value)) extrMts
    let trows := parsed.map (fun p =>
      ({ textId := extrTids.getD p.pos 0, obsId := extrObs.getD p.pos 0,
         matchType := some p.matchType, a := p.a, b := p.b, t := p.t,
         c := p.c, warning := p.warning } : TRow))
    let inRange := fun (v : Option Int) (lo hi : Int) =>
      match v with
      | none => true
      | some n => lo ≤ n ∧ n ≤ hi
    let kept := trows.filter (fun r =>
      inRange r.a 2 5 && inRange r.b 2 5 && inRange r.t 2 5 && inRange r.c 4 10)
    let kept2 :=
      if format = "standard".toList then
        (kept.zip (numberObs (kept.map (fun r => r.textId)))).map (fun pr =>
          { pr.1 with obsId := pr.2 })
      else kept
    let out ← typedFormatDtToStandardFormatDt kept2
    pure (addScoreWarnings out, pdt2)

/-! ### Result projections and concrete inputs used by the theorems -/

/-- The rows of a successful `extract_gleason_scores` call. -/
def okRows (e : Except PyErr (List OutRow × List PatternRow)) : List OutRow :=
  match e with
  | .ok pr => pr.1
  | .error _ => []

/-- The post-call pattern table of a successful call. -/
def okTableGS (e : Except PyErr (List OutRow × List PatternRow)) :
    Option (List PatternRow) :=
  match e with
  | .ok pr => some pr.2
  | .error _ => none

def okTableCAV (e : Except PyErr (List ExtrRow × List PatternRow)) :
    Option (List PatternRow) :=
  match e with
  | .ok pr => some pr.2
  | .error _ => none

def isOkE : Except ε α → Bool
  | .ok _ => true
  | .error _ => false

/-- The lower-case letters `toLowerCh` can produce. -/
def lowerLetters : List Char := "abcdefghijklmnopqrstuvwxyzåäö".toList

/-- A one-row pattern table whose single pattern captures the whole
string `3+4=7` with match type `a + b = c` (a minimal usage-valid
table; pattern tables are caller configuration). -/
def sumTable : List PatternRow :=
  [⟨"G".toList, some "a + b = c".toList, .eps, litSeq "3+4=7".toList, .eps, none⟩]

/-- A one-row usage-valid pattern table whose pattern (`x`) matches
nothing in the text `q`. -/
def noMatchTable : List PatternRow :=
  [⟨"Q".toList, some "a + b".toList, .eps, .lit 'x', .eps, none⟩]

/-- Two patterns for the mask-overlap failing input: `A` captures the
letter `a`; `B` captures any digit run (`[0-9]+`), which also matches
the digits of the `%ORDER=…%` part of a mask. -/
def maskDigitsTable : List PatternRow :=
  [⟨"A".toList, none, .eps, .lit 'a', .eps, none⟩,
   ⟨"B".toList, none, .eps, .rep (.cls [('0', '9')] false) 1 none, .eps, none⟩]

/-- One pattern capturing the letter `a` (for the phantom-token failing
input). -/
def phantomTable : List PatternRow :=
  [⟨"A".toList, none, .eps, .lit 'a', .eps, none⟩]

/-- A one-row table without a `full_pattern` value, used to exhibit the
mutation of the caller's table. -/
def plainTable : List PatternRow :=
  [⟨"A".toList, some "a".toList, .eps, .lit 'x', .eps, none⟩]

/-- Four solitary observations with type sequence `a, a, b, b`. -/
def soloA (oid v : Int) : TRow :=
  ⟨0, oid, some "a".toList, some v, none, none, none, none⟩

def soloB (oid v : Int) : TRow :=
  ⟨0, oid, some "b".toList, none, some v, none, none, none⟩

/-- No two adjacent characters both satisfy `p` (the shape of the
"no run of length ≥ 2" invariants of `normalise_text`). -/
@[reducible]
def noRun (p : Char → Bool) (a b : Char) : Prop :=
  ¬ (p a = true ∧ p b = true)

/-- No digit immediately followed by a letter (the invariant established
by the `(?<=[0-9])(?=[a-zåäöA-ZÅÄÖ])` substitution of `normalise_text`). -/
@[reducible]
def noDigLet (a b : Char) : Prop :=
  ¬ (isDigitCh a = true ∧ isLetterCls b = true)

/-- The group-id step relation: ids repeat or increase by one. -/
def grpStep (x y : Nat) : Prop := y = x ∨ y = x + 1

/-! ## Theorems -/

theorem elemRepeat_length (comb : List Elem) (n : Nat) :
    (elemRepeat comb n).length = comb.length * n := by
  induction comb with
  | nil => simp [elemRepeat]
  | cons e rest ih =>
    simp only [elemRepeat, List.flatMap_cons, List.length_append,
      List.length_replicate, List.length_cons] at ih ⊢
    rw [ih]
    ring

theorem findNEach_bounds {suffix comb : List Elem} {nMax len : Nat}
    (hc : comb ≠ []) (h : findNEach suffix comb nMax = some len) :
    1 ≤ len ∧ len ≤ suffix.length := by
  obtain ⟨j, _, hj⟩ := List.exists_of_findSome?_eq_some h
  simp only at hj
  split at hj
  · rename_i hmatch
    have hlen : len = (elemRepeat comb (j + 1)).length := by
      simpa using hj.symm
    have hrep := elemRepeat_length comb (j + 1)
    have hcl : 1 ≤ comb.length := by
      cases comb with
      | nil => exact absurd rfl hc
      | cons _ _ => simp
    have hpos : 0 < comb.length * (j + 1) := Nat.mul_pos (by omega) (by omega)
    constructor
    · omega
    · have := congrArg List.length (of_decide_eq_true hmatch)
      simp only [List.length_take] at this
      omega
  · exact absurd hj (by simp)

theorem findCombination_bounds {suffix : List Elem} {nMax len : Nat}
    (h : findCombination suffix nMax = some len) :
    1 ≤ len ∧ len ≤ suffix.length := by
  obtain ⟨comb, hmem, hcomb⟩ := List.exists_of_findSome?_eq_some h
  have hc : comb ≠ [] := by
    have : ∀ x ∈ allowedCombinations, x ≠ ([] : List Elem) := by decide
    exact this comb hmem
  exact findNEach_bounds hc hcomb

theorem findCombination_cons_isSome (e : Elem) (rest : List Elem) {nMax : Nat}
    (hn : 1 ≤ nMax) : (findCombination (e :: rest) nMax).isSome := by
  rw [Option.isSome_iff_ne_none]
  intro hnone
  rw [findCombination, List.findSome?_eq_none_iff] at hnone
  have hmem : [e] ∈ allowedCombinations := by cases e <;> decide
  have h0 := hnone [e] hmem
  rw [findNEach, List.findSome?_eq_none_iff] at h0
  have h00 := h0 0 (by simpa using hn)
  simp only [elemRepeat, matchesAt] at h00
  split at h00
  · exact absurd h00 (by simp)
  · rename_i hm
    apply hm
    cases e <;> simp [List.flatMap_cons]

theorem assignGroupsAux_spec (nMax : Nat) (hn : 1 ≤ nMax) :
    ∀ (fuel : Nat) (ts : List Elem) (g : Nat), ts.length ≤ fuel →
      (assignGroupsAux nMax fuel ts g).length = ts.length ∧
      (assignGroupsAux nMax fuel ts g).head? = ts.head?.map (fun _ => g) ∧
      List.Chain' grpStep (assignGroupsAux nMax fuel ts g) := by
  intro fuel
  induction fuel with
  | zero =>
    intro ts g hle
    have : ts = [] := List.eq_nil_of_length_eq_zero (by omega)
    subst this
    simp [assignGroupsAux]
  | succ fuel ih =>
    intro ts g hle
    match ts with
    | [] => simp [assignGroupsAux]
    | e :: rest =>
      have hsome := findCombination_cons_isSome e rest hn
      obtain ⟨len, hlen⟩ := Option.isSome_iff_exists.mp hsome
      obtain ⟨h1, h2⟩ := findCombination_bounds hlen
      have hmin : min len (e :: rest).length = len := by
        simp only [List.length_cons] at h2 ⊢
        omega
      have hdroplen : ((e :: rest).drop len).length ≤ fuel := by
        simp only [List.length_drop, List.length_cons] at *
        omega
      obtain ⟨ihl, ihh, ihc⟩ := ih ((e :: rest).drop len) (g + 1) hdroplen
      simp only [assignGroupsAux, hlen, hmin]
      refine ⟨by simp [ihl]; simp at h2 ⊢; omega, ?_, ?_⟩
      · have : 0 < len := h1
        cases hl : len with
        | zero => omega
        | succ n => simp [List.replicate_succ]
      · rw [List.chain'_append]
        refine ⟨List.chain'_replicate_of_rel _ (Or.inl rfl), ihc, ?_⟩
        intro x hx y hy
        rw [List.getLast?_replicate, Option.mem_def] at hx
        have hxg : x = g := by
          split at hx
          · exact absurd hx (by simp)
          · exact (Option.some_inj.mp hx).symm
        rw [ihh, Option.mem_def] at hy
        have hyg : y = g + 1 := by
          cases hdh : ((e :: rest).drop len).head? with
          | none => rw [hdh] at hy; exact absurd hy (by simp)
          | some z => rw [hdh] at hy; simpa using hy.symm
        right
        rw [hxg, hyg]

/-- Claim C7: for every input table of `determine_element_combinations`
in which each row has exactly one non-null value among `a`/`b`/`t`/`c`
(and any positive `n_max_each`, as in both call sites), the function
terminates successfully, assigns every input row exactly one group id
(the output pairs each row with its id), and the ids are contiguous
integers starting at 0 in order of first appearance (the id sequence
starts at 0 and each id either repeats the previous one or is its
successor). -/
theorem c7_resolver_total_coverage (rows : List TRow) (nMax : Nat)
    (hn : 1 ≤ nMax) (h : ∀ r ∈ rows, exactlyOneVal r = true) :
    ∃ grps : List Nat,
      determineElementCombinations rows nMax = .ok (rows.zip grps) ∧
      grps.length = rows.length ∧
      grps.head? = rows.head?.map (fun _ => 0) ∧
      List.Chain' grpStep grps := by
  refine ⟨assignGroups (rows.map rowType) nMax, ?_, ?_, ?_, ?_⟩
  · rw [determineElementCombinations, if_pos]
    exact List.all_eq_true.mpr h
  all_goals {
    obtain ⟨hl, hh, hc⟩ := assignGroupsAux_spec nMax hn
      (rows.map rowType).length (rows.map rowType) 0 (Nat.le_refl _)
    first
    | (rw [assignGroups]; rw [hl]; simp)
    | (rw [assignGroups]; rw [hh]; cases rows <;> simp)
    | (rw [assignGroups]; exact hc)
  }

theorem c7_resolver_total_coverage_witness :
    ∃ grps : List Nat,
      determineElementCombinations [soloA 1 3, soloB 2 4] 6 = .ok ([soloA 1 3, soloB 2 4].zip grps) ∧
      grps.length = 2 ∧
      grps.head? = some 0 ∧
      List.Chain' grpStep grps := by
  have h := c7_resolver_total_coverage [soloA 1 3, soloB 2 4] 6 (by decide) (by decide)
  simpa using h

/-- Claim C1 (counterexample): on the role sequence `a, a, b, b` (four
solitary rows), `determine_element_combinations` does not assign
`n_each = 2` distinct group ids cycling across the window — it assigns
the single group id 0 to all four positions (one distinct id, not
two). -/
theorem c1_counterexample :
    determineElementCombinations
        [soloA 1 3, soloA 2 4, soloB 3 4, soloB 4 3] 6 =
      .ok [(soloA 1 3, 0), (soloA 2 4, 0), (soloB 3 4, 0), (soloB 4 3, 0)] ∧
    (assignGroups [Elem.a, Elem.a, Elem.b, Elem.b] 6).dedup = [0] := by
  decide

/-- Claim C1 (amended): on a window whose role sequence matches a
template repeated element-wise with `n_each > 1` (here `a, a, b, b`,
i.e. `[a, b]` with `n_each = 2`), `determine_element_combinations`
assigns the single shared group id 0 to the entire window; the
interleaved pairing `{a@0, b@2}`, `{a@1, b@3}` is recovered downstream
by `combine_groups` in `typed_format_dt_to_standard_format_dt`, which
pairs the i-th non-null `a` with the i-th non-null `b` of the group,
writing the values into the group's first two rows. -/
theorem c1_amended (v0 v1 v2 v3 o0 o1 o2 o3 : Int) :
    assignGroups [Elem.a, Elem.a, Elem.b, Elem.b] 6 = [0, 0, 0, 0] ∧
    combineGroupsT [soloA o0 v0, soloA o1 v1, soloB o2 v2, soloB o3 v3] =
      [⟨0, o0, some "a".toList, some v0, some v2, none, none, none⟩,
       ⟨0, o1, some "a".toList, some v1, some v3, none, none, none⟩] := by
  constructor
  · decide
  · rfl

theorem extractCAV_table {texts : List (Option (List Char))}
    {pdt : List PatternRow} {maskOpt : Option (List Char)} {cap : Nat}
    {st : List ExtrRow × List PatternRow}
    (h : extractCAV texts pdt maskOpt cap = .ok st) :
    st.2 = pdt.map setFullPat := by
  unfold extractCAV at h
  dsimp only at h
  split at h
  · exact absurd h (by simp)
  · generalize htm : (match maskOpt with
      | some (mc :: mrest) => mc :: mrest
      | _ => maskTemplateDefault) = tmpl at h
    cases e : texts.enum.foldlM (fun acc pr => do
        match pr.2 with
        | none => pure acc
        | some [] => pure acc
        | some (tc :: trest) => do
          let st ← perText (pdt.map setFullPat) tmpl cap (tc :: trest)
          if st.2 = [] then
            pure acc
          else
            let ordered ← (ordTokens st.1).mapM (fun k =>
              match st.2.get? k with
              | some rec => pure (⟨pr.1, rec.name, rec.value⟩ : ExtrRow)
              | none => Except.error (.keyError "order token without a matching row".toList))
            pure (acc ++ ordered)) ([] : List ExtrRow) with
    | error err =>
      rw [e] at h
      simp [Bind.bind, Except.bind] at h
    | ok rows =>
      rw [e] at h
      simp only [Bind.bind, Except.bind, pure, Except.pure] at h
      injection h with h2
      rw [← h2]

theorem extractGS_ok_shape {texts : List (Option (List Char))}
    {textIds : List Int} {format : List Char} {pdt : List PatternRow}
    {pr : List OutRow × List PatternRow}
    (h : extractGleasonScores texts textIds format pdt = .ok pr) :
    ∃ out, pr.1 = addScoreWarnings out ∧ pr.2 = pdt.map setFullPat := by
  unfold extractGleasonScores at h
  split at h
  · exact absurd h (by simp)
  split at h
  · exact absurd h (by simp)
  split at h
  · exact absurd h (by simp)
  split at h
  · exact absurd h (by simp)
  split at h
  · exact absurd h (by simp)
  rename_i h1 h2 h3 h4 h5
  dsimp only at h
  cases e1 : extractCAV (texts.map (fun t =>
      match t with
      | some (tc :: trest) => some (prepareText (tc :: trest))
      | _ => none)) pdt none 100 with
  | error err =>
    rw [e1] at h
    simp [Bind.bind, Except.bind] at h
  | ok st =>
    rw [e1] at h
    obtain ⟨extr, pdt2⟩ := st
    simp only [Bind.bind, Except.bind] at h
    cases e2 : parseGleasonValueStringElements (extr.map (fun e => e.value))
        (extr.map (fun e => matchTypeOf pdt2 e.patternName)) with
    | error err =>
      rw [e2] at h
      simp at h
    | ok parsed =>
      rw [e2] at h
      dsimp only at h
      generalize hk : (if (format = "standard".toList) then _ else _ : List TRow) = kept2 at h
      cases e3 : typedFormatDtToStandardFormatDt kept2 with
      | error err =>
        rw [e3] at h
        simp at h
      | ok out =>
        rw [e3] at h
        simp only [pure, Except.pure] at h
        injection h with h6
        refine ⟨out, ?_, ?_⟩
        · rw [← h6]
        · rw [← h6]
          exact extractCAV_table e1

theorem appendWarning_isSome (w : Option (List Char)) (msg : List Char) :
    (appendWarning w msg).isSome := by
  unfold appendWarning
  split <;> simp

theorem addScoreWarnings_sum {out : List OutRow} {r : OutRow}
    {va vb vc : Int} (hmem : r ∈ addScoreWarnings out) (ha : r.a = some va)
    (hb : r.b = some vb) (hc : r.c = some vc) (hw : r.warning = none) :
    va + vb = vc := by
  rw [addScoreWarnings, List.mem_map] at hmem
  obtain ⟨r0, _, hr⟩ := hmem
  cases h0a : r0.a with
  | none => rw [← hr] at ha; simp [h0a] at ha
  | some wa =>
  cases h0b : r0.b with
  | none => rw [← hr] at hb; simp [h0a, h0b] at hb
  | some wb =>
  cases h0c : r0.c with
  | none => rw [← hr] at hc; simp [h0a, h0b, h0c] at hc
  | some wc =>
  rw [h0a, h0b, h0c] at hr
  simp only at hr
  by_cases hsum : wa + wb ≠ wc
  · rw [if_pos hsum] at hr
    rw [← hr] at hw
    simp only at hw
    have := appendWarning_isSome r0.warning "a + b != c".toList
    rw [hw] at this
    simp at this
  · rw [if_neg hsum] at hr
    push_neg at hsum
    rw [← hr] at ha hb hc
    rw [h0a] at ha
    rw [h0b] at hb
    rw [h0c] at hc
    simp only [Option.some_inj] at ha hb hc
    rw [← ha, ← hb, ← hc]
    exact hsum

/-- Claim C8: in every merged output row of `extract_gleason_scores`
whose primary (`a`), secondary (`b`) and aggregate (`c`) are all
non-null, a null warning implies `a + b = c` (the final warning pass
flags every complete row with `a + b ≠ c`). -/
theorem c8_sum_identity (texts : List (Option (List Char)))
    (textIds : List Int) (format : List Char) (pdt : List PatternRow)
    (r : OutRow) (va vb vc : Int)
    (hmem : r ∈ okRows (extractGleasonScores texts textIds format pdt))
    (ha : r.a = some va) (hb : r.b = some vb) (hc : r.c = some vc)
    (hw : r.warning = none) : va + vb = vc := by
  unfold okRows at hmem
  cases e : extractGleasonScores texts textIds format pdt with
  | error err => rw [e] at hmem; simp at hmem
  | ok pr =>
    rw [e] at hmem
    simp only at hmem
    obtain ⟨out, hout, -⟩ := extractGS_ok_shape e
    rw [hout] at hmem
    exact addScoreWarnings_sum hmem ha hb hc hw

set_option maxRecDepth 40000 in
theorem c8_sum_identity_witness : (3 : Int) + 4 = 7 :=
  c8_sum_identity [some "3+4=7".toList] [0] "standard".toList sumTable
    ⟨0, 1, some 3, some 4, none, some 7, none⟩ 3 4 7
    (by decide) rfl rfl rfl rfl

/-- Claim C10: any call of `extract_gleason_scores` whose `format` is not
`"standard"` — including `"typed"`, which the signature advertises —
fails validation with a `ValueError` before any text is processed: the
result is an error (never a partial table) and does not depend on the
texts at all. -/
theorem c10_format_validation (texts texts2 : List (Option (List Char)))
    (textIds : List Int) (format : List Char) (pdt : List PatternRow)
    (hfmt : format ≠ "standard".toList) :
    extractGleasonScores texts textIds format pdt =
      extractGleasonScores texts2 textIds format pdt ∧
    ∃ msg, extractGleasonScores texts textIds format pdt =
      .error (.valueError msg) := by
  have key : ∀ ts : List (Option (List Char)),
      extractGleasonScores ts textIds format pdt =
        if ¬ textIds.Nodup then
          .error (.valueError "text ids must be unique".toList)
        else .error (.valueError "Only standard format is implemented.".toList) := by
    intro ts
    unfold extractGleasonScores
    by_cases hnd : textIds.Nodup
    · rw [if_neg (not_not_intro hnd), if_pos hfmt, if_neg (not_not_intro hnd)]
    · rw [if_pos hnd, if_pos hnd]
  rw [key texts, key texts2]
  by_cases hnd : textIds.Nodup
  · rw [if_neg (not_not_intro hnd)]
    exact ⟨rfl, _, rfl⟩
  · rw [if_pos hnd]
    exact ⟨rfl, _, rfl⟩

theorem c10_format_validation_witness :
    extractGleasonScores [some "x".toList] [0] "typed".toList [] =
      extractGleasonScores [] [0] "typed".toList [] ∧
    ∃ msg, extractGleasonScores [some "x".toList] [0] "typed".toList [] =
      .error (.valueError msg) :=
  c10_format_validation [some "x".toList] [] [0] "typed".toList []
    (by decide)

/-- Claim C6 (counterexample): `extract_context_affixed_values` does not
leave the caller's pattern table unchanged — after a call, the table has
gained a `full_pattern` column (`pattern_dt.loc[:, "full_pattern"] = …`
mutates the argument in place). -/
theorem c6_counterexample :
    okTableCAV (extractCAV [] plainTable none 100) =
      some (plainTable.map setFullPat) ∧
    plainTable.map setFullPat ≠ plainTable := by
  constructor
  · decide
  · decide

/-- Claim C6 (amended): the pattern table is not read-only configuration:
every successful call of `extract_context_affixed_values` — and of
`extract_gleason_scores`, which passes the caller's table straight to
it — writes the `full_pattern` column (the named-group assembly of
prefix, value and suffix) into the caller's table; all the other columns
are left unchanged. -/
theorem c6_amended :
    (∀ (texts : List (Option (List Char))) (pdt : List PatternRow)
        (maskOpt : Option (List Char)) (cap : Nat),
      isOkE (extractCAV texts pdt maskOpt cap) = true →
      okTableCAV (extractCAV texts pdt maskOpt cap) =
        some (pdt.map setFullPat)) ∧
    (∀ (texts : List (Option (List Char))) (textIds : List Int)
        (format : List Char) (pdt : List PatternRow),
      isOkE (extractGleasonScores texts textIds format pdt) = true →
      okTableGS (extractGleasonScores texts textIds format pdt) =
        some (pdt.map setFullPat)) ∧
    (∀ pdt : List PatternRow,
      (pdt.map setFullPat).map (fun r =>
        (r.patternName, r.matchType, r.rxPre, r.rxVal, r.rxSuf)) =
      pdt.map (fun r =>
        (r.patternName, r.matchType, r.rxPre, r.rxVal, r.rxSuf))) := by
  refine ⟨?_, ?_, ?_⟩
  · intro texts pdt maskOpt cap hok
    cases e : extractCAV texts pdt maskOpt cap with
    | error err => rw [e] at hok; simp [isOkE] at hok
    | ok st =>
      simp only [okTableCAV]
      rw [extractCAV_table e]
  · intro texts textIds format pdt hok
    cases e : extractGleasonScores texts textIds format pdt with
    | error err => rw [e] at hok; simp [isOkE] at hok
    | ok pr =>
      simp only [okTableGS]
      obtain ⟨out, -, htbl⟩ := extractGS_ok_shape e
      rw [htbl]
  · intro pdt
    simp [setFullPat]

set_option maxRecDepth 40000 in
theorem c6_amended_witness :
    okTableCAV (extractCAV [] plainTable none 100) =
      some (plainTable.map setFullPat) ∧
    okTableGS (extractGleasonScores [some "3+4=7".toList] [0]
        "standard".toList sumTable) = some (sumTable.map setFullPat) ∧
    (sumTable.map setFullPat).map (fun r =>
      (r.patternName, r.matchType, r.rxPre, r.rxVal, r.rxSuf)) =
      sumTable.map (fun r =>
        (r.patternName, r.matchType, r.rxPre, r.rxVal, r.rxSuf)) :=
  ⟨c6_amended.1 [] plainTable none 100 (by decide),
   c6_amended.2.1 [some "3+4=7".toList] [0] "standard".toList sumTable
     (by decide),
   c6_amended.2.2 sumTable⟩

/-- Claim C2 (code evaluation at a failing input): a usage-valid call in
which no text yields any pattern match raises instead of returning an
empty table: with the one-pattern table `noMatchTable` (pattern `x`,
match type `a + b`) and the single text `"q"`, nothing matches,
`parse_gleason_value_string_elements` receives empty inputs, its
`parsed_dt` stays `None`, and `parsed_dt['pos']` raises `TypeError`;
the second conjunct evaluates that function directly at the empty
input. -/
theorem c2_no_match_raises :
    extractGleasonScores [some "q".toList] [0] "standard".toList
        noMatchTable =
      .error (.typeError "NoneType object is not subscriptable".toList) ∧
    parseGleasonValueStringElements [] [] =
      .error (.typeError "NoneType object is not subscriptable".toList) := by
  constructor
  · decide
  · decide

/-- Claim C3 (code evaluation at a failing input): masking does not
protect a masked span from later patterns.  Text `"a"` with table
`maskDigitsTable` and one try per pattern: pattern `A` matches `a` and
masks it; pattern `B` (`[0-9]+`) then matches the digits `000` of the
mask's `%ORDER=000%` core — a match overlapping the masked span — and
overwrites part of the mask, so the final scan finds only `%ORDER=001%`
and returns a single row whose extracted value `000` is mask text
(pattern `A`'s own row is dropped). -/
theorem c3_mask_overlap :
    (extractCAV [some "a".toList] maskDigitsTable none 1).map
        (fun pr => pr.1) =
      .ok [⟨0, "B".toList, "000".toList⟩] ∧
    ('0' ∉ "a".toList) := by
  constructor
  · decide
  · decide

/-- Claim C4 (code evaluation at a failing input): the final
order-recovery scan trusts every `%ORDER=k%` occurrence in the masked
text.  The text `"a %ORDER=0%"` contains such a token literally; with
the single pattern `A` (which matches only the `a`), the scan finds the
real mask token `%ORDER=000%` and then the phantom token, and
`dt.loc[order_in_text]` duplicates discovery row 0: one match produces
two identical output rows, so the returned rows are not the matched
spans in appearance order. -/
theorem c4_phantom_token :
    (extractCAV [some "a %ORDER=0%".toList] phantomTable none 100).map
        (fun pr => pr.1) =
      .ok [⟨0, "A".toList, "a".toList⟩, ⟨0, "A".toList, "a".toList⟩] := by
  decide

theorem subRunsGo_chars {p : Char → Bool} {k : Nat} :
    ∀ {s : List Char} {skip : Nat} {c : Char},
      c ∈ subRunsGo p k skip s → c ∈ s ∨ c = ' ' := by
  intro s
  induction s with
  | nil => intro skip c h; simp [subRunsGo] at h
  | cons ch rest ih =>
    intro skip c h
    match skip with
    | skip + 1 =>
      rcases ih h with h2 | h2
      · exact Or.inl (List.mem_cons_of_mem _ h2)
      · exact Or.inr h2
    | 0 =>
      rw [subRunsGo] at h
      split at h
      · rw [List.mem_append] at h
        rcases h with h | h
        · split at h
          · simp at h
            exact Or.inr h
          · rcases List.mem_cons.mp h with h2 | h2
            · exact Or.inl (h2 ▸ List.mem_cons_self _ _)
            · exact Or.inl (List.mem_cons_of_mem _
                ((List.takeWhile_sublist p).subset h2))
        · rcases ih h with h2 | h2
          · exact Or.inl (List.mem_cons_of_mem _ h2)
          · exact Or.inr h2
      · rcases List.mem_cons.mp h with h2 | h2
        · exact Or.inl (h2 ▸ List.mem_cons_self _ _)
        · rcases ih h2 with h3 | h3
          · exact Or.inl (List.mem_cons_of_mem _ h3)
          · exact Or.inr h3

theorem subLitGo_chars {pat repl : List Char} :
    ∀ {s : List Char} {skip : Nat} {c : Char},
      c ∈ subLitGo pat repl skip s → c ∈ s ∨ c ∈ repl := by
  intro s
  induction s with
  | nil => intro skip c h; simp [subLitGo] at h
  | cons ch rest ih =>
    intro skip c h
    match skip with
    | skip + 1 =>
      rcases ih h with h2 | h2
      · exact Or.inl (List.mem_cons_of_mem _ h2)
      · exact Or.inr h2
    | 0 =>
      rw [subLitGo] at h
      split at h
      · rw [List.mem_append] at h
        rcases h with h | h
        · exact Or.inr h
        · rcases ih h with h2 | h2
          · exact Or.inl (List.mem_cons_of_mem _ h2)
          · exact Or.inr h2
      · rcases List.mem_cons.mp h with h2 | h2
        · exact Or.inl (h2 ▸ List.mem_cons_self _ _)
        · rcases ih h2 with h3 | h3
          · exact Or.inl (List.mem_cons_of_mem _ h3)
          · exact Or.inr h3

theorem insertDL_chars :
    ∀ {s : List Char} {c : Char},
      c ∈ insertDigitLetterSpace s → c ∈ s ∨ c = ' ' := by
  intro s
  induction s with
  | nil => intro c h; simp [insertDigitLetterSpace] at h
  | cons c1 rest ih =>
    intro c h
    match rest with
    | [] =>
      rw [insertDigitLetterSpace] at h
      exact Or.inl h
    | c2 :: rest2 =>
      rw [insertDigitLetterSpace] at h
      split at h
      · rcases List.mem_cons.mp h with h2 | h2
        · exact Or.inl (h2 ▸ List.mem_cons_self _ _)
        · rcases List.mem_cons.mp h2 with h3 | h3
          · exact Or.inr h3
          · rcases ih h3 with h4 | h4
            · exact Or.inl (List.mem_cons_of_mem _ h4)
            · exact Or.inr h4
      · rcases List.mem_cons.mp h with h2 | h2
        · exact Or.inl (h2 ▸ List.mem_cons_self _ _)
        · rcases ih h2 with h3 | h3
          · exact Or.inl (List.mem_cons_of_mem _ h3)
          · exact Or.inr h3

theorem foldlSubLit_chars {c : Char} :
    ∀ (pairs : List (List Char × List Char)) (s : List Char),
      (∀ pr ∈ pairs, ∀ d ∈ pr.2, d = ' ' ∨ isDigit09 d = true) →
      c ∈ pairs.foldl (fun acc pr => subLit pr.1 pr.2 acc) s →
      c ∈ s ∨ c = ' ' ∨ isDigit09 c = true := by
  intro pairs
  induction pairs with
  | nil => intro s _ h; exact Or.inl h
  | cons pr rest ih =>
    intro s hrep h
    rw [List.foldl_cons] at h
    rcases ih (subLit pr.1 pr.2 s)
        (fun q hq => hrep q (List.mem_cons_of_mem _ hq)) h with h2 | h2 | h2
    · rcases subLitGo_chars h2 with h3 | h3
      · exact Or.inl h3
      · exact Or.inr (hrep pr (List.mem_cons_self _ _) c h3)
    · exact Or.inr (Or.inl h2)
    · exact Or.inr (Or.inr h2)

theorem romanStep_chars {s : List Char} {c : Char} (h : c ∈ romanStep s) :
    c ∈ s ∨ c = ' ' ∨ isDigit09 c = true := by
  rw [romanStep] at h
  exact foldlSubLit_chars romanSubPairs s (by decide) h

theorem subLitGo_eq_self {pat repl : List Char} :
    ∀ {s : List Char}, (∀ t, t <:+ s → ¬ pat.isPrefixOf t) →
      subLitGo pat repl 0 s = s := by
  intro s
  induction s with
  | nil => intro _; rw [subLitGo]
  | cons ch rest ih =>
    intro h
    rw [subLitGo, if_neg, ih]
    · intro t ht
      exact h t (ht.trans (List.suffix_cons ch rest))
    · intro hcontra
      exact h (ch :: rest) List.suffix_rfl hcontra.2

theorem subLit_eq_self_of_missing {pat repl s : List Char} {ch : Char}
    (hch : ch ∈ pat) (hs : ch ∉ s) : subLit pat repl s = s := by
  rw [subLit]
  apply subLitGo_eq_self
  intro t ht hpre
  rw [List.isPrefixOf_iff_prefix] at hpre
  exact hs (ht.sublist.subset (hpre.sublist.subset hch))

theorem romanStep_eq_self {s : List Char} (hI : 'I' ∉ s) (hV : 'V' ∉ s)
    (hX : 'X' ∉ s) : romanStep s = s := by
  rw [romanStep, romanSubPairs]
  simp only [List.foldl_cons, List.foldl_nil]
  rw [subLit_eq_self_of_missing (show 'I' ∈ " I ".toList by decide) hI,
    subLit_eq_self_of_missing (show 'I' ∈ " II ".toList by decide) hI,
    subLit_eq_self_of_missing (show 'I' ∈ " III ".toList by decide) hI,
    subLit_eq_self_of_missing (show 'I' ∈ " IV ".toList by decide) hI,
    subLit_eq_self_of_missing (show 'V' ∈ " V ".toList by decide) hV,
    subLit_eq_self_of_missing (show 'V' ∈ " VI ".toList by decide) hV,
    subLit_eq_self_of_missing (show 'V' ∈ " VII ".toList by decide) hV,
    subLit_eq_self_of_missing (show 'V' ∈ " VIII ".toList by decide) hV,
    subLit_eq_self_of_missing (show 'I' ∈ " IX ".toList by decide) hI,
    subLit_eq_self_of_missing (show 'X' ∈ " X ".toList by decide) hX]

theorem tl_eq_self_or_lower (ch : Char) :
    toLowerCh ch = ch ∨ toLowerCh ch ∈ lowerLetters := by
  unfold toLowerCh
  split
  all_goals first | (right; decide) | (left; rfl)

/-- Claim C5 (counterexample): `normalise_text` can introduce new digit
characters — the Roman-numeral substitution turns `" I "` into `" 1 "`,
whose digit `1` is not in the input. -/
theorem c5_counterexample :
    ('1' ∈ normaliseText " I ".toList) ∧ '1' ∉ " I ".toList := by
  constructor
  · decide
  · decide

/-- Claim C5 (amended): the only step of `normalise_text` that
introduces digits is the Roman-numeral conversion (space-delimited
upper-case `I`–`X`).  For every input containing none of the letters
`I`, `V`, `X`, every digit of the output occurs in the input. -/
theorem c5_no_new_digits (s : List Char) (hI : 'I' ∉ s) (hV : 'V' ∉ s)
    (hX : 'X' ∉ s) (c : Char) (hd : isDigit09 c = true)
    (hmem : c ∈ normaliseText s) : c ∈ s := by
  have hcsp : c ≠ ' ' := by
    intro h
    rw [h] at hd
    exact absurd hd (by decide)
  simp only [normaliseText] at hmem
  -- everything below the Roman step, mapped back into the input
  have hback : ∀ x : Char, x ≠ ' ' →
      x ∈ insertDigitLetterSpace (subRuns (fun ch => ch = '-') 2
        (subRuns (fun ch => ch = '_') 1 (subRuns (fun ch => ch = '.') 2
          (subRuns (fun ch => ch = ':' ∨ ch = ' ') 1
            (s.map (fun ch => if ch = '\n' ∨ ch = '\r' then ' ' else ch)))))) →
      x ∈ s := by
    intro x hx hxm
    rcases insertDL_chars hxm with h5 | h5
    · rcases subRunsGo_chars h5 with h4 | h4
      · rcases subRunsGo_chars h4 with h3 | h3
        · rcases subRunsGo_chars h3 with h2 | h2
          · rcases subRunsGo_chars h2 with h1 | h1
            · rcases List.mem_map.mp h1 with ⟨d, hdm, hfd⟩
              by_cases hdc : d = '\n' ∨ d = '\r'
              · rw [if_pos hdc] at hfd
                exact absurd hfd.symm hx
              · rw [if_neg hdc] at hfd
                exact hfd ▸ hdm
            · exact absurd h1 hx
          · exact absurd h2 hx
        · exact absurd h3 hx
      · exact absurd h4 hx
    · exact absurd h5 hx
  have hroman : romanStep (insertDigitLetterSpace (subRuns (fun ch => ch = '-') 2
      (subRuns (fun ch => ch = '_') 1 (subRuns (fun ch => ch = '.') 2
        (subRuns (fun ch => ch = ':' ∨ ch = ' ') 1
          (s.map (fun ch => if ch = '\n' ∨ ch = '\r' then ' ' else ch))))))) =
      insertDigitLetterSpace (subRuns (fun ch => ch = '-') 2
      (subRuns (fun ch => ch = '_') 1 (subRuns (fun ch => ch = '.') 2
        (subRuns (fun ch => ch = ':' ∨ ch = ' ') 1
          (s.map (fun ch => if ch = '\n' ∨ ch = '\r' then ' ' else ch)))))) := by
    apply romanStep_eq_self
    · intro h
      exact hI (hback 'I' (by decide) h)
    · intro h
      exact hV (hback 'V' (by decide) h)
    · intro h
      exact hX (hback 'X' (by decide) h)
  rw [hroman] at hmem
  rcases List.mem_map.mp hmem with ⟨d, hd8, htl⟩
  have hcd : c ∈ subRuns pyIsSpace 1 (insertDigitLetterSpace
      (subRuns (fun ch => ch = '-') 2 (subRuns (fun ch => ch = '_') 1
        (subRuns (fun ch => ch = '.') 2
          (subRuns (fun ch => ch = ':' ∨ ch = ' ') 1
            (s.map (fun ch => if ch = '\n' ∨ ch = '\r' then ' ' else ch))))))) := by
    rcases tl_eq_self_or_lower d with h | h
    · rw [htl] at h
      exact h ▸ hd8
    · rw [htl] at h
      have : ∀ x ∈ lowerLetters, isDigit09 x = false := by decide
      rw [this c h] at hd
      exact absurd hd (by simp)
  rcases subRunsGo_chars hcd with h8 | h8
  · exact hback c hcsp h8
  · exact absurd h8 hcsp

theorem c5_no_new_digits_witness : '3' ∈ "ab3".toList :=
  c5_no_new_digits "ab3".toList (by decide) (by decide) (by decide) '3'
    (by decide) (by decide)

theorem drop_length_takeWhile (p : Char → Bool) :
    ∀ l : List Char, l.drop (l.takeWhile p).length = l.dropWhile p := by
  intro l
  induction l with
  | nil => simp
  | cons ch rest ih =>
    by_cases h : p ch
    · rw [List.takeWhile_cons_of_pos h, List.dropWhile_cons_of_pos h]
      simpa using ih
    · rw [List.takeWhile_cons_of_neg h, List.dropWhile_cons_of_neg h]
      simp

theorem subRunsGo_skip (p : Char → Bool) (k : Nat) :
    ∀ (n : Nat) (s : List Char),
      subRunsGo p k n s = subRunsGo p k 0 (s.drop n) := by
  intro n
  induction n with
  | zero => intro s; simp
  | succ n ih =>
    intro s
    cases s with
    | nil => rw [subRunsGo]; simp [subRunsGo]
    | cons ch rest => rw [subRunsGo, ih, List.drop_succ_cons]

theorem subRuns_cons_pos {p : Char → Bool} {k : Nat} {ch : Char}
    {rest : List Char} (h : p ch = true) :
    subRuns p k (ch :: rest) =
      (if k ≤ (ch :: rest.takeWhile p).length then [' ']
       else ch :: rest.takeWhile p) ++ subRuns p k (rest.dropWhile p) := by
  rw [subRuns, subRunsGo, if_pos h, subRunsGo_skip, drop_length_takeWhile,
    subRuns]

theorem subRuns_cons_neg {p : Char → Bool} {k : Nat} {ch : Char}
    {rest : List Char} (h : ¬ p ch = true) :
    subRuns p k (ch :: rest) = ch :: subRuns p k rest := by
  rw [subRuns, subRunsGo, if_neg h, subRuns]

theorem subRuns_nil (p : Char → Bool) (k : Nat) : subRuns p k [] = [] := by
  rw [subRuns, subRunsGo]

theorem subLitGo_skip (pat repl : List Char) :
    ∀ (n : Nat) (s : List Char),
      subLitGo pat repl n s = subLitGo pat repl 0 (s.drop n) := by
  intro n
  induction n with
  | zero => intro s; simp
  | succ n ih =>
    intro s
    cases s with
    | nil => rw [subLitGo]; simp [subLitGo]
    | cons ch rest => rw [subLitGo, ih, List.drop_succ_cons]

theorem subLit_cons_pos {pat repl : List Char} {ch : Char}
    {rest : List Char} (h : pat ≠ [] ∧ pat.isPrefixOf (ch :: rest)) :
    subLit pat repl (ch :: rest) =
      repl ++ subLit pat repl (rest.drop (pat.length - 1)) := by
  rw [subLit, subLitGo, if_pos h, subLitGo_skip, subLit]

theorem subLit_cons_neg {pat repl : List Char} {ch : Char}
    {rest : List Char} (h : ¬ (pat ≠ [] ∧ pat.isPrefixOf (ch :: rest))) :
    subLit pat repl (ch :: rest) = ch :: subLit pat repl rest := by
  rw [subLit, subLitGo, if_neg h, subLit]

/-- Identity: no character of `s` is in the class. -/
theorem subRuns_eq_self_of_no_p {p : Char → Bool} {k : Nat} :
    ∀ {s : List Char}, (∀ c ∈ s, p c = false) → subRuns p k s = s := by
  intro s
  induction s with
  | nil => intro _; exact subRuns_nil p k
  | cons ch rest ih =>
    intro h
    rw [subRuns_cons_neg (by simp [h ch (List.mem_cons_self _ _)]), ih]
    intro c hc
    exact h c (List.mem_cons_of_mem _ hc)

theorem dropWhile_head_neg {p : Char → Bool} :
    ∀ {l : List Char} {c : Char},
      (l.dropWhile p).head? = some c → p c = false := by
  intro l
  induction l with
  | nil => intro c h; simp at h
  | cons ch rest ih =>
    intro c h
    by_cases hp : p ch = true
    · rw [List.dropWhile_cons_of_pos hp] at h
      exact ih h
    · rw [List.dropWhile_cons_of_neg hp, List.head?_cons] at h
      injection h with h2
      rw [← h2]
      exact Bool.not_eq_true _ ▸ hp

theorem subRuns_head_cases (p : Char → Bool) (k : Nat) :
    ∀ s : List Char,
      (subRuns p k s).head? = s.head? ∨ (subRuns p k s).head? = some ' ' := by
  intro s
  cases s with
  | nil => left; rw [subRuns_nil]
  | cons ch rest =>
    by_cases hp : p ch = true
    · rw [subRuns_cons_pos hp]
      by_cases hk : k ≤ (ch :: rest.takeWhile p).length
      · rw [if_pos hk, List.singleton_append, List.head?_cons]
        right; rfl
      · rw [if_neg hk, List.cons_append, List.head?_cons]
        left; rfl
    · rw [subRuns_cons_neg hp, List.head?_cons]
      left; rfl

theorem subRuns_head_dropWhile (p : Char → Bool) (k : Nat) (l : List Char) :
    ∀ c, (subRuns p k (l.dropWhile p)).head? = some c → p c = false := by
  intro c h
  cases hdw : l.dropWhile p with
  | nil => rw [hdw, subRuns_nil] at h; simp at h
  | cons d r =>
    have hd : p d = false :=
      dropWhile_head_neg (show (l.dropWhile p).head? = some d by rw [hdw]; rfl)
    rw [hdw, subRuns_cons_neg (by simp [hd]), List.head?_cons] at h
    injection h with h2
    rw [← h2]
    exact hd

theorem dropWhile_eq_of_takeWhile_nil {p : Char → Bool} {l : List Char}
    (h : l.takeWhile p = []) : l.dropWhile p = l := by
  rw [← drop_length_takeWhile p l, h]
  rfl

theorem subRuns_chain (p : Char → Bool) (k : Nat) (hk2 : k ≤ 2) :
    ∀ (n : Nat) (s : List Char), s.length ≤ n →
      List.Chain' (noRun p) (subRuns p k s) := by
  intro n
  induction n with
  | zero =>
    intro s hlen
    have hs : s = [] := List.eq_nil_of_length_eq_zero (Nat.le_zero.mp hlen)
    rw [hs, subRuns_nil]
    exact List.chain'_nil
  | succ n ih =>
    intro s hlen
    cases s with
    | nil => rw [subRuns_nil]; exact List.chain'_nil
    | cons ch rest =>
      rw [List.length_cons] at hlen
      have hrest : rest.length ≤ n := Nat.succ_le_succ_iff.mp hlen
      by_cases hp : p ch = true
      · rw [subRuns_cons_pos hp]
        by_cases hk : k ≤ (ch :: rest.takeWhile p).length
        · rw [if_pos hk, List.singleton_append]
          refine List.chain'_cons'.mpr ⟨?_, ?_⟩
          · intro y hy hcon
            have hyn : p y = false :=
              subRuns_head_dropWhile p k rest y hy
            rw [hyn] at hcon
            exact Bool.false_ne_true hcon.2
          · exact ih (rest.dropWhile p)
              (Nat.le_trans ((List.dropWhile_sublist p).length_le) hrest)
        · rw [if_neg hk]
          rw [List.length_cons] at hk
          have htw : rest.takeWhile p = [] :=
            List.eq_nil_of_length_eq_zero (by omega)
          rw [htw, List.cons_append, List.nil_append]
          refine List.chain'_cons'.mpr ⟨?_, ?_⟩
          · intro y hy hcon
            have hyn : p y = false :=
              subRuns_head_dropWhile p k rest y hy
            rw [hyn] at hcon
            exact Bool.false_ne_true hcon.2
          · exact ih (rest.dropWhile p)
              (Nat.le_trans ((List.dropWhile_sublist p).length_le) hrest)
      · rw [subRuns_cons_neg hp]
        refine List.chain'_cons'.mpr ⟨?_, ih rest hrest⟩
        intro y hy hcon
        exact hp hcon.1

theorem subRuns_one_mem (p : Char → Bool) :
    ∀ (n : Nat) (s : List Char), s.length ≤ n →
      ∀ c ∈ subRuns p 1 s, p c = true → c = ' ' := by
  intro n
  induction n with
  | zero =>
    intro s hlen c hc
    have hs : s = [] := List.eq_nil_of_length_eq_zero (Nat.le_zero.mp hlen)
    rw [hs, subRuns_nil] at hc
    simp at hc
  | succ n ih =>
    intro s hlen c hc hpc
    cases s with
    | nil => rw [subRuns_nil] at hc; simp at hc
    | cons ch rest =>
      rw [List.length_cons] at hlen
      have hrest : rest.length ≤ n := Nat.succ_le_succ_iff.mp hlen
      by_cases hp : p ch = true
      · rw [subRuns_cons_pos hp,
          if_pos (by rw [List.length_cons]; omega),
          List.singleton_append, List.mem_cons] at hc
        rcases hc with hc | hc
        · exact hc
        · exact ih (rest.dropWhile p)
            (Nat.le_trans ((List.dropWhile_sublist p).length_le) hrest)
            c hc hpc
      · rw [subRuns_cons_neg hp, List.mem_cons] at hc
        rcases hc with hc | hc
        · rw [hc] at hpc
          exact absurd hpc hp
        · exact ih rest hrest c hc hpc

theorem subRuns_chain_preserve (p : Char → Bool) (k : Nat)
    (R : Char → Char → Prop) (hR1 : ∀ x, R x ' ') (hR2 : ∀ x, R ' ' x) :
    ∀ (n : Nat) (s : List Char), s.length ≤ n → List.Chain' R s →
      List.Chain' R (subRuns p k s) := by
  intro n
  induction n with
  | zero =>
    intro s hlen _
    have hs : s = [] := List.eq_nil_of_length_eq_zero (Nat.le_zero.mp hlen)
    rw [hs, subRuns_nil]
    exact List.chain'_nil
  | succ n ih =>
    intro s hlen hc
    cases s with
    | nil => rw [subRuns_nil]; exact List.chain'_nil
    | cons ch rest =>
      rw [List.length_cons] at hlen
      have hrest : rest.length ≤ n := Nat.succ_le_succ_iff.mp hlen
      have hdlen : (rest.dropWhile p).length ≤ n :=
        Nat.le_trans ((List.dropWhile_sublist p).length_le) hrest
      have hctail : List.Chain' R (rest.dropWhile p) :=
        hc.tail.suffix (List.dropWhile_suffix p)
      have hc2 : List.Chain' R ((ch :: rest.takeWhile p) ++ rest.dropWhile p) := by
        rw [List.cons_append, List.takeWhile_append_dropWhile]
        exact hc
      by_cases hp : p ch = true
      · rw [subRuns_cons_pos hp]
        by_cases hk : k ≤ (ch :: rest.takeWhile p).length
        · rw [if_pos hk, List.singleton_append]
          refine List.chain'_cons'.mpr ⟨fun y _ => hR2 y, ih _ hdlen hctail⟩
        · rw [if_neg hk]
          refine List.chain'_append.mpr ⟨?_, ih _ hdlen hctail, ?_⟩
          · exact hc.prefix ⟨rest.dropWhile p, by
              rw [List.cons_append, List.takeWhile_append_dropWhile]⟩
          · intro x hx y hy
            rcases subRuns_head_cases p k (rest.dropWhile p) with hcase | hcase
            · rw [hcase] at hy
              exact (List.chain'_append.mp hc2).2.2 x hx y hy
            · rw [hcase] at hy
              have : y = ' ' := by cases hy; rfl
              rw [this]
              exact hR1 x
      · rw [subRuns_cons_neg hp]
        refine List.chain'_cons'.mpr ⟨?_, ih rest hrest hc.tail⟩
        intro y hy
        rcases subRuns_head_cases p k rest with hcase | hcase
        · rw [hcase] at hy
          exact (List.chain'_cons'.mp hc).1 y hy
        · rw [hcase] at hy
          have : y = ' ' := by cases hy; rfl
          rw [this]
          exact hR1 ch

theorem takeWhile_nil_of_chain {p : Char → Bool} {ch : Char}
    {rest : List Char} (hp : p ch = true)
    (hc : List.Chain' (noRun p) (ch :: rest)) :
    rest.takeWhile p = [] := by
  cases rest with
  | nil => rfl
  | cons d r =>
    have hd : ¬ p d = true := by
      intro hdp
      exact (List.chain'_cons'.mp hc).1 d rfl ⟨hp, hdp⟩
    exact List.takeWhile_cons_of_neg hd

theorem subRuns_one_eq_self {p : Char → Bool} :
    ∀ {s : List Char}, (∀ c ∈ s, p c = true → c = ' ') →
      List.Chain' (noRun p) s → subRuns p 1 s = s := by
  intro s
  induction s with
  | nil => intro _ _; exact subRuns_nil p 1
  | cons ch rest ih =>
    intro hmem hch
    by_cases hp : p ch = true
    · have hsp : ch = ' ' := hmem ch (List.mem_cons_self _ _) hp
      have htw : rest.takeWhile p = [] := takeWhile_nil_of_chain hp hch
      rw [subRuns_cons_pos hp, htw, dropWhile_eq_of_takeWhile_nil htw,
        if_pos (by rw [List.length_cons]; omega), List.singleton_append,
        ih (fun c hc => hmem c (List.mem_cons_of_mem _ hc)) hch.tail, hsp]
    · rw [subRuns_cons_neg hp,
        ih (fun c hc => hmem c (List.mem_cons_of_mem _ hc)) hch.tail]

theorem subRuns_two_eq_self {p : Char → Bool} :
    ∀ {s : List Char}, List.Chain' (noRun p) s → subRuns p 2 s = s := by
  intro s
  induction s with
  | nil => intro _; exact subRuns_nil p 2
  | cons ch rest ih =>
    intro hch
    by_cases hp : p ch = true
    · have htw : rest.takeWhile p = [] := takeWhile_nil_of_chain hp hch
      rw [subRuns_cons_pos hp, htw, dropWhile_eq_of_takeWhile_nil htw,
        if_neg (by rw [List.length_cons, List.length_nil]; omega),
        List.cons_append, List.nil_append, ih hch.tail]
    · rw [subRuns_cons_neg hp, ih hch.tail]

theorem insertDL_head :
    ∀ l : List Char, (insertDigitLetterSpace l).head? = l.head? := by
  intro l
  cases l with
  | nil => rfl
  | cons c1 tail =>
    cases tail with
    | nil => rfl
    | cons c2 rest =>
      rw [insertDigitLetterSpace]
      split <;> rfl

theorem insertDL_chain (R : Char → Char → Prop) (hR1 : ∀ x, R x ' ')
    (hR2 : ∀ x, R ' ' x) :
    ∀ {l : List Char}, List.Chain' R l →
      List.Chain' R (insertDigitLetterSpace l) := by
  intro l
  induction l with
  | nil => intro _; exact List.chain'_nil
  | cons c1 tail ih =>
    intro hc
    cases tail with
    | nil => exact List.chain'_singleton c1
    | cons c2 rest =>
      rw [insertDigitLetterSpace]
      have hrec := ih hc.tail
      have hhead : (insertDigitLetterSpace (c2 :: rest)).head? = some c2 :=
        insertDL_head _
      split
      · refine List.chain'_cons'.mpr ⟨fun b hb => ?_,
          List.chain'_cons'.mpr ⟨fun b hb => ?_, hrec⟩⟩
        · have : b = ' ' := by cases hb; rfl
          rw [this]; exact hR1 c1
        · rw [hhead] at hb
          have : b = c2 := by cases hb; rfl
          rw [this]; exact hR2 c2
      · refine List.chain'_cons'.mpr ⟨fun b hb => ?_, hrec⟩
        rw [hhead] at hb
        have : b = c2 := by cases hb; rfl
        rw [this]
        exact (List.chain'_cons'.mp hc).1 c2 rfl

theorem insertDL_noDigLet :
    ∀ l : List Char, List.Chain' noDigLet (insertDigitLetterSpace l) := by
  intro l
  induction l with
  | nil => exact List.chain'_nil
  | cons c1 tail ih =>
    cases tail with
    | nil => exact List.chain'_singleton c1
    | cons c2 rest =>
      rw [insertDigitLetterSpace]
      have hhead : (insertDigitLetterSpace (c2 :: rest)).head? = some c2 :=
        insertDL_head _
      split
      · refine List.chain'_cons'.mpr ⟨fun b hb => ?_,
          List.chain'_cons'.mpr ⟨fun b hb => ?_, ih⟩⟩
        · have : b = ' ' := by cases hb; rfl
          rw [this]
          exact fun hcon => absurd hcon.2 (by decide)
        · exact fun hcon => absurd hcon.1 (by decide)
      · next hneg =>
        refine List.chain'_cons'.mpr ⟨fun b hb => ?_, ih⟩
        rw [hhead] at hb
        have : b = c2 := by cases hb; rfl
        rw [this]
        exact hneg

theorem insertDL_eq_self :
    ∀ {l : List Char}, List.Chain' noDigLet l →
      insertDigitLetterSpace l = l := by
  intro l
  induction l with
  | nil => intro _; rfl
  | cons c1 tail ih =>
    intro hc
    cases tail with
    | nil => rfl
    | cons c2 rest =>
      rw [insertDigitLetterSpace,
        if_neg ((List.chain'_cons'.mp hc).1 c2 rfl), ih hc.tail]

theorem subLit_nil (pat repl : List Char) : subLit pat repl [] = [] := by
  rw [subLit, subLitGo]

theorem subLit_head_cases (pat repl : List Char) :
    ∀ l : List Char, (subLit pat repl l).head? = l.head? ∨
      (subLit pat repl l).head? = repl.head? ∨ repl = [] := by
  intro l
  cases l with
  | nil => left; rw [subLit_nil]
  | cons ch rest =>
    by_cases hm : pat ≠ [] ∧ pat.isPrefixOf (ch :: rest)
    · rw [subLit_cons_pos hm]
      cases repl with
      | nil => right; right; rfl
      | cons r rs => right; left; rfl
    · rw [subLit_cons_neg hm, List.head?_cons]
      left; rfl

theorem subLit_chain (pat repl : List Char) (R : Char → Char → Prop)
    (hR1 : ∀ x, R x ' ') (hR2 : ∀ x, R ' ' x)
    (hrc : List.Chain' R repl) (hh : repl.head? = some ' ')
    (hl : repl.getLast? = some ' ') :
    ∀ (n : Nat) (l : List Char), l.length ≤ n → List.Chain' R l →
      List.Chain' R (subLit pat repl l) := by
  intro n
  induction n with
  | zero =>
    intro l hlen _
    have hls : l = [] := List.eq_nil_of_length_eq_zero (Nat.le_zero.mp hlen)
    rw [hls, subLit_nil]
    exact List.chain'_nil
  | succ n ih =>
    intro l hlen hc
    cases l with
    | nil => rw [subLit_nil]; exact List.chain'_nil
    | cons ch rest =>
      rw [List.length_cons] at hlen
      have hrest : rest.length ≤ n := Nat.succ_le_succ_iff.mp hlen
      by_cases hm : pat ≠ [] ∧ pat.isPrefixOf (ch :: rest)
      · rw [subLit_cons_pos hm]
        have hdlen : (rest.drop (pat.length - 1)).length ≤ n := by
          rw [List.length_drop]
          omega
        refine List.chain'_append.mpr
          ⟨hrc, ih _ hdlen (hc.tail.drop _), ?_⟩
        intro x hx y hy
        rw [hl] at hx
        have : x = ' ' := by cases hx; rfl
        rw [this]
        exact hR2 y
      · rw [subLit_cons_neg hm]
        refine List.chain'_cons'.mpr ⟨?_, ih rest hrest hc.tail⟩
        intro y hy
        rcases subLit_head_cases pat repl rest with hcase | hcase | hcase
        · rw [hcase] at hy
          exact (List.chain'_cons'.mp hc).1 y hy
        · rw [hcase, hh] at hy
          have : y = ' ' := by cases hy; rfl
          rw [this]
          exact hR1 ch
        · rw [hcase] at hh
          simp at hh

theorem foldl_subLit_chain (R : Char → Char → Prop)
    (hR1 : ∀ x, R x ' ') (hR2 : ∀ x, R ' ' x) :
    ∀ (pairs : List (List Char × List Char)) (s : List Char),
      (∀ pr ∈ pairs, List.Chain' R pr.2 ∧ pr.2.head? = some ' ' ∧
        pr.2.getLast? = some ' ') →
      List.Chain' R s →
      List.Chain' R (pairs.foldl (fun acc pr => subLit pr.1 pr.2 acc) s) := by
  intro pairs
  induction pairs with
  | nil => intro s _ hs; exact hs
  | cons pr rest ih =>
    intro s hp hs
    rw [List.foldl_cons]
    refine ih _ (fun q hq => hp q (List.mem_cons_of_mem _ hq)) ?_
    obtain ⟨h1, h2, h3⟩ := hp pr (List.mem_cons_self _ _)
    exact subLit_chain pr.1 pr.2 R hR1 hR2 h1 h2 h3 s.length s
      (Nat.le_refl _) hs

theorem romanStep_chain (R : Char → Char → Prop) (hR1 : ∀ x, R x ' ')
    (hR2 : ∀ x, R ' ' x)
    (hpairs : ∀ pr ∈ romanSubPairs, List.Chain' R pr.2 ∧
      pr.2.head? = some ' ' ∧ pr.2.getLast? = some ' ')
    {l : List Char} (h : List.Chain' R l) : List.Chain' R (romanStep l) := by
  rw [romanStep]
  exact foldl_subLit_chain R hR1 hR2 romanSubPairs l hpairs h

theorem lowerLetters_fixed : ∀ c ∈ lowerLetters, toLowerCh c = c := by
  decide

theorem tl_idem (c : Char) : toLowerCh (toLowerCh c) = toLowerCh c := by
  rcases tl_eq_self_or_lower c with h | h
  · rw [h, h]
  · exact lowerLetters_fixed _ h

theorem tl_preimage {p : Char → Bool} (hp : ∀ c ∈ lowerLetters, p c = false) :
    ∀ c : Char, p (toLowerCh c) = true → p c = true := by
  intro c h
  rcases tl_eq_self_or_lower c with h2 | h2
  · rwa [h2] at h
  · rw [hp _ h2] at h
    exact absurd h (by simp)

theorem letter_tl :
    ∀ c : Char, isLetterCls (toLowerCh c) = true → isLetterCls c = true := by
  intro c
  unfold toLowerCh
  split
  all_goals intro h
  all_goals first | decide | exact h

theorem tl_ne_upper (c : Char) :
    toLowerCh c ≠ 'I' ∧ toLowerCh c ≠ 'V' ∧ toLowerCh c ≠ 'X' := by
  rcases tl_eq_self_or_lower c with h | h
  · refine ⟨fun hc => ?_, fun hc => ?_, fun hc => ?_⟩
    · have hcc : c = 'I' := h.symm.trans hc
      rw [hcc] at h
      exact absurd h (by decide)
    · have hcc : c = 'V' := h.symm.trans hc
      rw [hcc] at h
      exact absurd h (by decide)
    · have hcc : c = 'X' := h.symm.trans hc
      rw [hcc] at h
      exact absurd h (by decide)
  · refine ⟨fun hc => ?_, fun hc => ?_, fun hc => ?_⟩ <;>
      (rw [hc] at h; exact absurd h (by decide))

theorem map_eq_self_of {f : Char → Char} :
    ∀ {l : List Char}, (∀ c ∈ l, f c = c) → l.map f = l := by
  intro l
  induction l with
  | nil => intro _; rfl
  | cons ch rest ih =>
    intro h
    rw [List.map_cons, h ch (List.mem_cons_self _ _),
      ih (fun c hc => h c (List.mem_cons_of_mem _ hc))]

theorem chain_norun_mono {p p' : Char → Bool} :
    ∀ {l : List Char}, (∀ c ∈ l, p' c = true → p c = true) →
      List.Chain' (noRun p) l → List.Chain' (noRun p') l := by
  intro l
  induction l with
  | nil => intro _ _; exact List.chain'_nil
  | cons ch rest ih =>
    intro hm hc
    rw [List.chain'_cons'] at hc ⊢
    obtain ⟨h1, h2⟩ := hc
    refine ⟨?_, ih (fun c hc' => hm c (List.mem_cons_of_mem _ hc')) h2⟩
    intro b hb hcontra
    apply h1 b hb
    exact ⟨hm ch (List.mem_cons_self _ _) hcontra.1,
      hm b (List.mem_cons_of_mem _ (List.mem_of_mem_head? hb)) hcontra.2⟩

theorem chain_norun_map_tl {p : Char → Bool}
    (hp : ∀ c ∈ lowerLetters, p c = false) {l : List Char}
    (h : List.Chain' (noRun p) l) :
    List.Chain' (noRun p) (l.map toLowerCh) := by
  rw [List.chain'_map]
  exact h.imp fun a b hab hcontra =>
    hab ⟨tl_preimage hp _ hcontra.1, tl_preimage hp _ hcontra.2⟩

theorem chain_diglet_map_tl {l : List Char}
    (h : List.Chain' noDigLet l) :
    List.Chain' noDigLet (l.map toLowerCh) := by
  rw [List.chain'_map]
  refine h.imp fun a b hab hcontra => hab ⟨?_, ?_⟩
  · exact tl_preimage (by decide) _ hcontra.1
  · exact letter_tl _ hcontra.2

theorem normalise_fixed {t : List Char}
    (hsp : ∀ c ∈ t, pyIsSpace c = true → c = ' ')
    (hcs : List.Chain' (noRun pyIsSpace) t)
    (hcolon : ':' ∉ t) (hus : '_' ∉ t)
    (hcdot : List.Chain' (noRun (fun ch => ch = '.')) t)
    (hcdash : List.Chain' (noRun (fun ch => ch = '-')) t)
    (hcdl : List.Chain' noDigLet t)
    (hlower : ∀ c ∈ t, toLowerCh c = c)
    (hivx : 'I' ∉ t ∧ 'V' ∉ t ∧ 'X' ∉ t) :
    normaliseText t = t := by
  have h1 : t.map (fun ch => if ch = '\n' ∨ ch = '\r' then ' ' else ch) = t := by
    apply map_eq_self_of
    intro c hc
    rw [if_neg]
    rintro (he | he) <;>
      (subst he; exact absurd (hsp _ hc (by decide)) (by decide))
  have h2 : subRuns (fun ch => ch = ':' ∨ ch = ' ') 1 t = t := by
    apply subRuns_one_eq_self
    · intro c hc hpc
      have hd : c = ':' ∨ c = ' ' := by simpa using hpc
      rcases hd with h | h
      · exact absurd (h ▸ hc) hcolon
      · exact h
    · apply chain_norun_mono ?_ hcs
      intro c hc hpc
      have hd : c = ':' ∨ c = ' ' := by simpa using hpc
      rcases hd with h | h
      · exact absurd (h ▸ hc) hcolon
      · subst h; decide
  have h3 : subRuns (fun ch => ch = '.') 2 t = t := subRuns_two_eq_self hcdot
  have h4 : subRuns (fun ch => ch = '_') 1 t = t := by
    apply subRuns_eq_self_of_no_p
    intro c hc
    rw [decide_eq_false_iff_not]
    intro he
    exact hus (he ▸ hc)
  have h5 : subRuns (fun ch => ch = '-') 2 t = t := subRuns_two_eq_self hcdash
  have h6 : insertDigitLetterSpace t = t := insertDL_eq_self hcdl
  have h7 : romanStep t = t := romanStep_eq_self hivx.1 hivx.2.1 hivx.2.2
  have h8 : subRuns pyIsSpace 1 t = t := subRuns_one_eq_self hsp hcs
  have h9 : t.map toLowerCh = t := map_eq_self_of hlower
  show normaliseText t = t
  simp only [normaliseText]
  rw [h1, h2, h3, h4, h5, h6, h7, h8, h9]

theorem mem_back_upper {c : Char} (hne : c ≠ ' ') (hnd : isDigit09 c = false)
    (X : List Char)
    (h : c ∈ subRuns pyIsSpace 1 (romanStep (insertDigitLetterSpace
      (subRuns (fun ch => ch = '-') 2 X)))) : c ∈ X := by
  rw [subRuns] at h
  rcases subRunsGo_chars h with h | h
  · rcases romanStep_chars h with h | h | h
    · rcases insertDL_chars h with h | h
      · rw [subRuns] at h
        rcases subRunsGo_chars h with h | h
        · exact h
        · exact absurd h hne
      · exact absurd h hne
    · exact absurd h hne
    · rw [hnd] at h
      exact absurd h (by decide)
  · exact absurd h hne

theorem roman_pairs_cond (R : Char → Char → Prop) (hR1 : ∀ x, R x ' ')
    (hR2 : ∀ x, R ' ' x) (h10 : R '1' '0') :
    ∀ pr ∈ romanSubPairs, List.Chain' R pr.2 ∧
      pr.2.head? = some ' ' ∧ pr.2.getLast? = some ' ' := by
  have hsingle : ∀ d : Char, List.Chain' R [' ', d, ' '] :=
    fun d => List.chain'_cons.mpr ⟨hR2 d,
      List.chain'_cons.mpr ⟨hR1 d, List.chain'_singleton ' '⟩⟩
  have hten : List.Chain' R [' ', '1', '0', ' '] :=
    List.chain'_cons.mpr ⟨hR2 '1', List.chain'_cons.mpr ⟨h10,
      List.chain'_cons.mpr ⟨hR1 '0', List.chain'_singleton ' '⟩⟩⟩
  intro pr hpr
  rw [romanSubPairs] at hpr
  rcases List.mem_cons.mp hpr with rfl | hpr
  · exact ⟨hsingle '1', by decide, by decide⟩
  rcases List.mem_cons.mp hpr with rfl | hpr
  · exact ⟨hsingle '2', by decide, by decide⟩
  rcases List.mem_cons.mp hpr with rfl | hpr
  · exact ⟨hsingle '3', by decide, by decide⟩
  rcases List.mem_cons.mp hpr with rfl | hpr
  · exact ⟨hsingle '4', by decide, by decide⟩
  rcases List.mem_cons.mp hpr with rfl | hpr
  · exact ⟨hsingle '5', by decide, by decide⟩
  rcases List.mem_cons.mp hpr with rfl | hpr
  · exact ⟨hsingle '6', by decide, by decide⟩
  rcases List.mem_cons.mp hpr with rfl | hpr
  · exact ⟨hsingle '7', by decide, by decide⟩
  rcases List.mem_cons.mp hpr with rfl | hpr
  · exact ⟨hsingle '8', by decide, by decide⟩
  rcases List.mem_cons.mp hpr with rfl | hpr
  · exact ⟨hsingle '9', by decide, by decide⟩
  rcases List.mem_cons.mp hpr with rfl | hpr
  · exact ⟨hten, by decide, by decide⟩
  simp at hpr


theorem normalise_shape (s : List Char) :
    normaliseText s =
      (subRuns pyIsSpace 1 (romanStep (insertDigitLetterSpace
        (subRuns (fun ch => ch = '-') 2 (subRuns (fun ch => ch = '_') 1
          (subRuns (fun ch => ch = '.') 2
            (subRuns (fun ch => ch = ':' ∨ ch = ' ') 1
              (s.map (fun ch =>
                if ch = '\n' ∨ ch = '\r' then ' ' else ch))))))))).map
        toLowerCh := rfl

theorem lower_not_pyspace : ∀ c ∈ lowerLetters, pyIsSpace c = false := by
  decide

theorem inv_space_mem (s : List Char) :
    ∀ c ∈ normaliseText s, pyIsSpace c = true → c = ' ' := by
  rw [normalise_shape s]
  intro c hc hpc
  obtain ⟨c', hc', rfl⟩ := List.mem_map.mp hc
  have hpc' : pyIsSpace c' = true := tl_preimage lower_not_pyspace c' hpc
  rw [subRuns_one_mem pyIsSpace _ _ (Nat.le_refl _) c' hc' hpc']
  decide

set_option maxHeartbeats 1600000 in
theorem inv_space_chain (s : List Char) :
    List.Chain' (noRun pyIsSpace) (normaliseText s) := by
  rw [normalise_shape s]
  apply chain_norun_map_tl lower_not_pyspace
  exact subRuns_chain pyIsSpace 1 (by omega) _ _ (Nat.le_refl _)

theorem inv_colon (s : List Char) : ':' ∉ normaliseText s := by
  rw [normalise_shape s]
  intro hmem
  obtain ⟨c', hc', htl⟩ := List.mem_map.mp hmem
  have hcc : c' = ':' := by
    rcases tl_eq_self_or_lower c' with h | h
    · exact h.symm.trans htl
    · rw [htl] at h
      exact absurd h (by decide)
  rw [hcc] at hc'
  have h4 := mem_back_upper (by decide) (by decide) _ hc'
  rw [subRuns] at h4
  rcases subRunsGo_chars h4 with h3 | h3
  · rw [subRuns] at h3
    rcases subRunsGo_chars h3 with h2 | h2
    · have := subRuns_one_mem _ _ _ (Nat.le_refl _) ':' h2 (by decide)
      exact absurd this (by decide)
    · exact absurd h2 (by decide)
  · exact absurd h3 (by decide)

theorem inv_us (s : List Char) : '_' ∉ normaliseText s := by
  rw [normalise_shape s]
  intro hmem
  obtain ⟨c', hc', htl⟩ := List.mem_map.mp hmem
  have hcc : c' = '_' := by
    rcases tl_eq_self_or_lower c' with h | h
    · exact h.symm.trans htl
    · rw [htl] at h
      exact absurd h (by decide)
  rw [hcc] at hc'
  have h4 := mem_back_upper (by decide) (by decide) _ hc'
  have := subRuns_one_mem _ _ _ (Nat.le_refl _) '_' h4 (by decide)
  exact absurd this (by decide)

theorem inv_dot (s : List Char) :
    List.Chain' (noRun (fun ch => ch = '.')) (normaliseText s) := by
  have hR1dot : ∀ x, noRun (fun ch => ch = '.') x ' ' :=
    fun x h => absurd h.2 (by decide)
  have hR2dot : ∀ x, noRun (fun ch => ch = '.') ' ' x :=
    fun x h => absurd h.1 (by decide)
  rw [normalise_shape s]
  apply chain_norun_map_tl (by decide)
  apply subRuns_chain_preserve _ 1 _ hR1dot hR2dot _ _ (Nat.le_refl _)
  apply romanStep_chain _ hR1dot hR2dot
    (roman_pairs_cond _ hR1dot hR2dot (by decide))
  apply insertDL_chain _ hR1dot hR2dot
  apply subRuns_chain_preserve _ 2 _ hR1dot hR2dot _ _ (Nat.le_refl _)
  apply subRuns_chain_preserve _ 1 _ hR1dot hR2dot _ _ (Nat.le_refl _)
  exact subRuns_chain _ 2 (by omega) _ _ (Nat.le_refl _)

theorem inv_dash (s : List Char) :
    List.Chain' (noRun (fun ch => ch = '-')) (normaliseText s) := by
  have hR1dash : ∀ x, noRun (fun ch => ch = '-') x ' ' :=
    fun x h => absurd h.2 (by decide)
  have hR2dash : ∀ x, noRun (fun ch => ch = '-') ' ' x :=
    fun x h => absurd h.1 (by decide)
  rw [normalise_shape s]
  apply chain_norun_map_tl (by decide)
  apply subRuns_chain_preserve _ 1 _ hR1dash hR2dash _ _ (Nat.le_refl _)
  apply romanStep_chain _ hR1dash hR2dash
    (roman_pairs_cond _ hR1dash hR2dash (by decide))
  apply insertDL_chain _ hR1dash hR2dash
  exact subRuns_chain _ 2 (by omega) _ _ (Nat.le_refl _)

theorem inv_dl (s : List Char) :
    List.Chain' noDigLet (normaliseText s) := by
  have hR1dl : ∀ x, noDigLet x ' ' := fun x h => absurd h.2 (by decide)
  have hR2dl : ∀ x, noDigLet ' ' x := fun x h => absurd h.1 (by decide)
  rw [normalise_shape s]
  apply chain_diglet_map_tl
  apply subRuns_chain_preserve _ 1 _ hR1dl hR2dl _ _ (Nat.le_refl _)
  apply romanStep_chain _ hR1dl hR2dl
    (roman_pairs_cond _ hR1dl hR2dl (by decide))
  exact insertDL_noDigLet _

theorem inv_lower (s : List Char) :
    ∀ c ∈ normaliseText s, toLowerCh c = c := by
  rw [normalise_shape s]
  intro c hc
  obtain ⟨c', _, rfl⟩ := List.mem_map.mp hc
  exact tl_idem c'

theorem inv_ivx (s : List Char) :
    'I' ∉ normaliseText s ∧ 'V' ∉ normaliseText s ∧ 'X' ∉ normaliseText s := by
  rw [normalise_shape s]
  refine ⟨fun hmem => ?_, fun hmem => ?_, fun hmem => ?_⟩
  · obtain ⟨c', _, htl⟩ := List.mem_map.mp hmem
    exact (tl_ne_upper c').1 htl
  · obtain ⟨c', _, htl⟩ := List.mem_map.mp hmem
    exact (tl_ne_upper c').2.1 htl
  · obtain ⟨c', _, htl⟩ := List.mem_map.mp hmem
    exact (tl_ne_upper c').2.2 htl

set_option maxHeartbeats 1600000 in
/-- Claim C9: `normalise_text` is idempotent — applying it to its own
output returns that output unchanged. -/
theorem c9_normalise_idempotent (s : List Char) :
    normaliseText (normaliseText s) = normaliseText s :=
  normalise_fixed (inv_space_mem s) (inv_space_chain s) (inv_colon s)
    (inv_us s) (inv_dot s) (inv_dash s) (inv_dl s) (inv_lower s) (inv_ivx s)
